import Mathlib

/-!
Verification of the talkie chat-worker RAG pipeline specification.

This file shallowly embeds the document model, the retrieval merge, the
stable-key functions, the query normalizer, the MMR selector, the LLM
reranker, the compress trigger and the join-context packing of the
chat-worker source, and proves or refutes the frozen claims about them.

Modeling conventions:
* Python floats are embedded as the type PFloat: finite values are exact
  rationals, plus the IEEE specials nan, inf and -inf that the pipeline
  manipulates explicitly.  Python ints are Lean Int (arbitrary precision
  in both languages, no wrap-around).
* Python dict metadata is an association list with unique keys; dict.get
  returning None (absent key or stored None) is modeled as Option.none.
* Python object identity (id) is modeled by the position of a document in
  the list under consideration; aliasing (the same object stored twice)
  is not modeled, and no claim under verification depends on it.
* Python string hash is implementation defined; it is modeled by a fixed
  stand-in function.  No claim under verification depends on its values.
-/

namespace Talkie

/-- Python float values carried in document metadata: finite rationals or
the IEEE specials the pipeline manipulates explicitly. -/
inductive PFloat where
  | fin (q : ℚ)
  | nan
  | inf
  | ninf
deriving DecidableEq, Repr

/-- Whether a PFloat is finite (math.isfinite). -/
def PFloat.finite : PFloat → Bool
  | .fin _ => true
  | _ => false

/-- Values stored in a metadata mapping (strings, numbers, booleans,
embedding vectors).  Python None stored under a key is modeled by the
key being absent, matching how the source only ever observes values
through dict.get and is-None checks. -/
inductive MVal where
  | s (v : String)
  | f (v : PFloat)
  | i (v : Int)
  | b (v : Bool)
  | vec (v : List ℚ)
deriving DecidableEq, Repr

/-- Python truthiness of a metadata value. -/
def MVal.truthy : MVal → Bool
  | .s v => v ≠ ""
  | .f (.fin q) => q ≠ 0
  | .f _ => true
  | .i n => n ≠ 0
  | .b x => x
  | .vec v => v ≠ []

/-- Python str() rendering of a metadata value.  Witness inputs only use
strings and ints, where the rendering is exact; floats and vectors render
as stand-ins. -/
def MVal.str : MVal → String
  | .s v => v
  | .i n => toString n
  | .b x => if x then "True" else "False"
  | .f (.fin q) => toString q
  | .f .nan => "nan"
  | .f .inf => "inf"
  | .f .ninf => "-inf"
  | .vec _ => "<vec>"

/-- Python float(v) applied to a metadata value: ints and bools convert,
floats pass through, everything else raises (None). -/
def MVal.toFloat : MVal → Option PFloat
  | .f v => some v
  | .i n => some (.fin n)
  | .b x => some (.fin (if x then 1 else 0))
  | _ => none

/-- Metadata mapping: association list with unique keys. -/
abbrev MMap := List (String × MVal)

/-- dict.get: first binding for the key, none when absent. -/
def MMap.get (m : MMap) (k : String) : Option MVal := m.lookup k

/-- dict assignment md k = v: replace in place when present, append when
absent. -/
def MMap.set (m : MMap) (k : String) (v : MVal) : MMap :=
  if (m.lookup k).isSome then
    m.map (fun p => if p.1 == k then (k, v) else p)
  else m ++ [(k, v)]

/-- dict.setdefault: insert only when the key is absent. -/
def MMap.setdefault (m : MMap) (k : String) (v : MVal) : MMap :=
  if (m.lookup k).isSome then m else m ++ [(k, v)]

/-- Canonical document record carried between stages (spec section 3:
page_content, metadata mapping, and top-level convenience fields). -/
structure Doc where
  doc_id : Option String := none
  file_id : Option String := none
  chunk_id : Option String := none
  chunk_index : Option Int := none
  title : Option String := none
  page : Option Int := none
  uri : Option String := none
  snippet : Option String := none
  score : Option PFloat := none
  embedding : Option (List ℚ) := none
  page_content : String := ""
  metadata : MMap := []
deriving DecidableEq, Repr

instance : Inhabited Doc := ⟨{}⟩

/-- Metadata access on a document. -/
def Doc.md (d : Doc) (k : String) : Option MVal := d.metadata.get k

/-- Truthiness of an optional string attribute (None and the empty string
are falsy). -/
def optStrTruthy : Option String → Bool
  | some s => s ≠ ""
  | none => false

/-- Python-or over a chain of optional metadata values: first truthy
value, else the final raw value of the chain. -/
def pyOr : List (Option MVal) → Option MVal
  | [] => none
  | [x] => x
  | x :: rest =>
    match x with
    | some v => if v.truthy then some v else pyOr rest
    | none => pyOr rest

/-- Stand-in for Python string hashing (implementation defined; no claim
depends on its values). -/
def pyHash (s : String) : Int :=
  s.foldl (fun a c => a * 131 + (c.toNat : Int)) 7

/-- Rendering used by Python f-strings for optional values: None renders
as the literal string None. -/
def optMValStr : Option MVal → String
  | none => "None"
  | some v => v.str

/-- Title fallback of doc_key: metadata filename when truthy, else the
empty string. -/
def docKeyMdTitle (d : Doc) : String :=
  match d.md "filename" with
  | some v => if v.truthy then v.str else ""
  | none => ""

/-- Innermost fallback of doc_key: the soft title|page|chunk_index key or
the content hash. -/
def docKeySofter (d : Doc) : String :=
  let t : String :=
    match d.title with
    | some t => if t ≠ "" then t else docKeyMdTitle d
    | none => docKeyMdTitle d
  let pg : Option MVal :=
    match d.page with
    | some n => some (.i n)
    | none => d.md "page"
  let ci : Option MVal :=
    match d.chunk_index with
    | some n => some (.i n)
    | none => d.md "chunk_index"
  if t ≠ "" ∨ pg.isSome ∨ ci.isSome then
    t ++ "|" ++ optMValStr pg ++ "|" ++ optMValStr ci
  else
    "content:" ++ toString (pyHash d.page_content)

/-- Fallback part of doc_key: uri prefix key when the uri is truthy, else
the soft key. -/
def docKeySoft (d : Doc) : String :=
  match d.uri with
  | some u => if u ≠ "" then "uri:" ++ u else docKeySofter d
  | none => docKeySofter d

/-- Merge key, from helpers/chain.py doc_key (lines 43-61): chunk_id,
metadata chunk_id / id, doc_id, metadata doc_id; else uri; else
title|page|chunk_index; else content hash. -/
def docKey (d : Doc) : String :=
  match pyOr [d.chunk_id.map MVal.s, d.md "chunk_id", d.md "id",
              d.doc_id.map MVal.s, d.md "doc_id"] with
  | some v => if v.truthy then v.str else docKeySoft d
  | none => docKeySoft d

/-- Loop body of helpers/chain.py merge_docs (lines 64-81): walk all
per-variant results in order, skip documents whose doc_key was already
seen, and return early once the optional limit is reached (the check runs
after appending). -/
def mergeLoop (limit : Option Nat) (todo : List Doc) (seen : List String)
    (acc : List Doc) : List Doc :=
  match todo with
  | [] => acc.reverse
  | d :: rest =>
    if docKey d ∈ seen then mergeLoop limit rest seen acc
    else
      match limit with
      | some l =>
        if l ≤ acc.length + 1 then (d :: acc).reverse
        else mergeLoop limit rest (docKey d :: seen) (d :: acc)
      | none => mergeLoop limit rest (docKey d :: seen) (d :: acc)

/-- helpers/chain.py merge_docs: merge per-variant retrieval results,
deduplicated by doc_key, in first-seen order, optionally capped. -/
def mergeDocs (docsByQuery : List (List Doc)) (limit : Option Nat) : List Doc :=
  mergeLoop limit docsByQuery.flatten [] []

/-- Unfolding equation of the merge loop on the empty list. -/
theorem mergeLoop_nil (limit : Option Nat) (seen : List String) (acc : List Doc) :
    mergeLoop limit [] seen acc = acc.reverse := by
  rw [mergeLoop.eq_def]

/-- Unfolding equation of the merge loop on a cons cell. -/
theorem mergeLoop_cons (limit : Option Nat) (d : Doc) (rest : List Doc)
    (seen : List String) (acc : List Doc) :
    mergeLoop limit (d :: rest) seen acc =
      if docKey d ∈ seen then mergeLoop limit rest seen acc
      else
        match limit with
        | some l =>
          if l ≤ acc.length + 1 then (d :: acc).reverse
          else mergeLoop limit rest (docKey d :: seen) (d :: acc)
        | none => mergeLoop limit rest (docKey d :: seen) (d :: acc) := by
  rw [mergeLoop.eq_def]

/-- Shape of the merge loop: the result extends the accumulator with a
sublist of the remaining input whose keys are fresh and pairwise
distinct. -/
theorem mergeLoop_shape (limit : Option Nat) :
    ∀ (rest : List Doc) (seen : List String) (acc : List Doc),
      ∃ s, mergeLoop limit rest seen acc = acc.reverse ++ s ∧
        s.Sublist rest ∧
        (∀ d ∈ s, docKey d ∉ seen) ∧
        s.Pairwise (fun a b => docKey a ≠ docKey b) := by
  intro rest
  induction rest with
  | nil =>
    intro seen acc
    exact ⟨[], by simp [mergeLoop_nil], List.Sublist.refl _, by simp, by simp⟩
  | cons d rest ih =>
    intro seen acc
    by_cases hseen : docKey d ∈ seen
    · obtain ⟨s, hs, hsub, hfresh, hpw⟩ := ih seen acc
      refine ⟨s, ?_, hsub.cons _, hfresh, hpw⟩
      rw [mergeLoop_cons, if_pos hseen]
      exact hs
    · match limit with
      | some l =>
        by_cases hl : l ≤ acc.length + 1
        · refine ⟨[d], ?_, ?_, ?_, ?_⟩
          · rw [mergeLoop_cons, if_neg hseen]
            simp [hl]
          · exact (List.nil_sublist rest).cons₂ d
          · intro x hx
            simp only [List.mem_singleton] at hx
            subst hx
            exact hseen
          · simp
        · obtain ⟨s, hs, hsub, hfresh, hpw⟩ := ih (docKey d :: seen) (d :: acc)
          refine ⟨d :: s, ?_, hsub.cons₂ _, ?_, ?_⟩
          · rw [mergeLoop_cons, if_neg hseen]
            simp only [hl, if_false]
            simpa using hs
          · intro x hx
            rcases List.mem_cons.mp hx with hx | hx
            · subst hx; exact hseen
            · intro hc
              exact hfresh x hx (List.mem_cons_of_mem _ hc)
          · refine List.pairwise_cons.mpr ⟨?_, hpw⟩
            intro x hx heq
            exact hfresh x hx (heq ▸ List.mem_cons_self _ _)
      | none =>
        obtain ⟨s, hs, hsub, hfresh, hpw⟩ := ih (docKey d :: seen) (d :: acc)
        refine ⟨d :: s, ?_, hsub.cons₂ _, ?_, ?_⟩
        · rw [mergeLoop_cons, if_neg hseen]
          simpa using hs
        · intro x hx
          rcases List.mem_cons.mp hx with hx | hx
          · subst hx; exact hseen
          · intro hc
            exact hfresh x hx (List.mem_cons_of_mem _ hc)
        · refine List.pairwise_cons.mpr ⟨?_, hpw⟩
          intro x hx heq
          exact hfresh x hx (heq ▸ List.mem_cons_self _ _)

/-- Length bound of the merge loop under a positive limit. -/
theorem mergeLoop_length_le (l : Nat) :
    ∀ (rest : List Doc) (seen : List String) (acc : List Doc),
      acc.length < l → (mergeLoop (some l) rest seen acc).length ≤ l := by
  intro rest
  induction rest with
  | nil =>
    intro seen acc hacc
    rw [mergeLoop_nil]
    simpa using Nat.le_of_lt hacc
  | cons d rest ih =>
    intro seen acc hacc
    by_cases hseen : docKey d ∈ seen
    · rw [mergeLoop_cons, if_pos hseen]
      exact ih seen acc hacc
    · by_cases hcut : l ≤ acc.length + 1
      · rw [mergeLoop_cons, if_neg hseen]
        simp only [hcut, if_true]
        simpa using Nat.succ_le_of_lt hacc
      · rw [mergeLoop_cons, if_neg hseen]
        simp only [hcut, if_false]
        exact ih (docKey d :: seen) (d :: acc) (by simpa using Nat.lt_of_not_le hcut)

/-- Completeness of the merge loop without a limit: every input document
has a key representative in the output. -/
theorem mergeLoop_complete :
    ∀ (rest : List Doc) (seen : List String) (acc : List Doc),
      ∀ d ∈ rest, docKey d ∈ seen ∨
        ∃ e ∈ mergeLoop none rest seen acc, docKey e = docKey d := by
  intro rest
  induction rest with
  | nil => intro seen acc d hd; cases hd
  | cons x rest ih =>
    intro seen acc d hd
    by_cases hseen : docKey x ∈ seen
    · rcases List.mem_cons.mp hd with hd | hd
      · exact Or.inl (hd ▸ hseen)
      · rcases ih seen acc d hd with h | ⟨e, he, heq⟩
        · exact Or.inl h
        · refine Or.inr ⟨e, ?_, heq⟩
          rw [mergeLoop_cons, if_pos hseen]
          exact he
    · have hred : mergeLoop none (x :: rest) seen acc
          = mergeLoop none rest (docKey x :: seen) (x :: acc) := by
        rw [mergeLoop_cons, if_neg hseen]
      rcases List.mem_cons.mp hd with hd | hd
      · obtain ⟨s, hs, -, -, -⟩ := mergeLoop_shape none rest (docKey x :: seen) (x :: acc)
        refine Or.inr ⟨x, ?_, by rw [hd]⟩
        rw [hred, hs]
        simp
      · rcases ih (docKey x :: seen) (x :: acc) d hd with h | ⟨e, he, heq⟩
        · rcases List.mem_cons.mp h with h | h
          · obtain ⟨s, hs, -, -, -⟩ := mergeLoop_shape none rest (docKey x :: seen) (x :: acc)
            refine Or.inr ⟨x, ?_, h.symm⟩
            rw [hred, hs]
            simp
          · exact Or.inl h
        · exact Or.inr ⟨e, by rw [hred]; exact he, heq⟩

/-- Two concrete retrieval documents used for the merge claims. -/
def mdocA : Doc := { chunk_id := some "c1", page_content := "alpha" }

/-- Second concrete retrieval document for the merge claims. -/
def mdocB : Doc := { chunk_id := some "c2", page_content := "beta" }

/-- C3: the merged retrieve output is deduplicated by the merge key
doc_key, preserves first-seen order (it is a sublist of the variant
results in variant order), every input document is represented by its key
when no cap applies, and the size is capped by top_k times the number of
variants whenever that product is at least 1.  (Amended: with a cap of 0,
the merge can still emit one document, because the limit check runs only
after a document is appended.) -/
theorem merge_dedup_order_cap (docsByQuery : List (List Doc)) (limit : Option Nat) :
    (mergeDocs docsByQuery limit).Pairwise (fun a b => docKey a ≠ docKey b) ∧
    (mergeDocs docsByQuery limit).Sublist docsByQuery.flatten ∧
    (∀ l, limit = some l → 1 ≤ l → (mergeDocs docsByQuery limit).length ≤ l) ∧
    (limit = none → ∀ d ∈ docsByQuery.flatten,
      ∃ e ∈ mergeDocs docsByQuery limit, docKey e = docKey d) := by
  obtain ⟨s, hs, hsub, -, hpw⟩ := mergeLoop_shape limit docsByQuery.flatten [] []
  refine ⟨?_, ?_, ?_, ?_⟩
  · rw [mergeDocs, hs]
    simpa using hpw
  · rw [mergeDocs, hs]
    simpa using hsub
  · intro l hl hpos
    rw [mergeDocs, hl]
    exact mergeLoop_length_le l docsByQuery.flatten [] [] (by simpa using hpos)
  · intro hnone d hd
    rw [mergeDocs, hnone]
    rcases mergeLoop_complete docsByQuery.flatten [] [] d hd with h | h
    · cases h
    · exact h

/-- C3 counterexample: with top_k = 0 and one query variant returning one
document, the cap is 0 but the merged output still contains one document,
refuting the claimed bound size at most top_k times the number of
variants. -/
theorem merge_cap_zero_cex :
    (mergeDocs [[mdocA]] (some 0)).length = 1 ∧
    ¬ ((mergeDocs [[mdocA]] (some 0)).length ≤ 0) := by
  constructor
  · rfl
  · decide

/-- C3 witness: the claim theorem applied at a concrete input, with the
inner hypotheses discharged there. -/
theorem merge_dedup_order_cap_witness :
    (mergeDocs [[mdocA], [mdocA, mdocB]] (some 4)).length ≤ 4 :=
  (merge_dedup_order_cap [[mdocA], [mdocA, mdocB]] (some 4)).2.2.1 4 rfl (by decide)

/-!
Query normalization (helpers/query.py).  The modeled character universe
is ASCII plus precomposed Hangul syllables, the domain this pipeline
targets: NFC normalization is the identity there and str.lower only
rewrites ASCII capitals.  Other code points are treated as non-word
characters.
-/

/-- str.lower on the modeled universe (ASCII capitals shift by 32). -/
def pyLower (c : Char) : Char :=
  if 65 ≤ c.toNat ∧ c.toNat ≤ 90 then Char.ofNat (c.toNat + 32) else c

/-- Precomposed Hangul syllable range used by the normalizer regexes. -/
def isHangul (c : Char) : Bool := 0xAC00 ≤ c.toNat && c.toNat ≤ 0xD7A3

/-- Character class of the regex [a-z0-9]. -/
def isAld (c : Char) : Bool :=
  (97 ≤ c.toNat && c.toNat ≤ 122) || (48 ≤ c.toNat && c.toNat ≤ 57)

/-- Regex whitespace class. -/
def pySpace (c : Char) : Bool :=
  c == ' ' || c == '\t' || c == '\n' || c == '\r' || c.toNat == 11 || c.toNat == 12

/-- Regex word class on the modeled universe. -/
def pyWordChar (c : Char) : Bool := c.isAlphanum || c == '_' || isHangul c

/-- Boundary-space insertion, modeling the two re.sub calls that insert a
space between every adjacent pair (p-char, q-char). -/
def insertBoundary (p q : Char → Bool) : List Char → List Char
  | [] => []
  | [c] => [c]
  | c :: d :: rest =>
    if p c && q d then c :: ' ' :: insertBoundary p q (d :: rest)
    else c :: insertBoundary p q (d :: rest)

/-- The dash replacement step of full normalization. -/
def dashToSpace (l : List Char) : List Char :=
  l.map fun c => if c == '-' then ' ' else c

/-- The punctuation stripping step: non-word non-space characters become
spaces. -/
def punctToSpace (l : List Char) : List Char :=
  l.map fun c => if pyWordChar c || pySpace c then c else ' '

/-- Whitespace-run squeezing: each whitespace run becomes one space.  The
boolean records whether the previous emitted character was a space. -/
def squeezeGo : List Char → Bool → List Char
  | [], _ => []
  | c :: rest, prevSp =>
    if pySpace c then
      if prevSp then squeezeGo rest true else ' ' :: squeezeGo rest true
    else c :: squeezeGo rest false

/-- strip(): drop whitespace from both ends. -/
def stripWs (l : List Char) : List Char :=
  ((l.dropWhile pySpace).reverse.dropWhile pySpace).reverse

/-- The final whitespace collapse and strip of full normalization. -/
def collapseWs (l : List Char) : List Char := stripWs (squeezeGo l false)

/-- Match a contiguous token at the head of the input, returning the
remainder. -/
def dropTok : List Char → List Char → Option (List Char)
  | [], s => some s
  | c :: cs, d :: ds => if c == d then dropTok cs ds else none
  | _ :: _, [] => none

/-- Match the remaining tokens of an alias alternative, each preceded by
an arbitrary whitespace gap. -/
def matchGap : List (List Char) → List Char → Option (List Char)
  | [], s => some s
  | t :: ts, s =>
    match dropTok t (s.dropWhile pySpace) with
    | some r => matchGap ts r
    | none => none

/-- Match one alias alternative (first token anchored, later tokens after
whitespace gaps) at the head of the input. -/
def matchAlt (alt : List (List Char)) (s : List Char) : Option (List Char) :=
  match alt with
  | [] => none
  | t :: ts =>
    match dropTok t s with
    | some r => matchGap ts r
    | none => none

/-- Try the alternatives of one alias rule in order (regex alternation is
leftmost-preferring). -/
def tryAlts : List (List (List Char)) → List Char → Option (List Char)
  | [], _ => none
  | a :: rest, s =>
    match matchAlt a s with
    | some r => some r
    | none => tryAlts rest s

/-- re.sub of one alias rule over the input, scanning left to right with
fuel (the fuel is the input length; every real rule consumes at least one
character per match, so the fuel never runs out on reachable inputs). -/
def aliasSub (alts : List (List (List Char))) (repl : List Char) :
    Nat → List Char → List Char
  | 0, s => s
  | _ + 1, [] => []
  | n + 1, c :: rest =>
    match tryAlts alts (c :: rest) with
    | some r => repl ++ aliasSub alts repl n r
    | none => c :: aliasSub alts repl n rest

/-- The alias table of helpers/query.py ko_tech_aliases, in source order.
Each rule lists its regex alternatives; an alternative is a sequence of
contiguous tokens separated by optional whitespace. -/
def aliasRules : List (List (List (List Char)) × List Char) :=
  [ ([[['챗'], ['지'], ['피'], ['티']], [['쳇'], ['지'], ['피'], ['티']]], "chatgpt".toList),
    ([[['지'], ['피'], ['티']], [['쥐'], ['피'], ['티']]], "gpt".toList),
    ([[['엘', '엘', '엠']], [['엘'], ['엘'], ['엠']]], "llm".toList),
    ([[['에', '이'], ['아', '이']]], "ai".toList),
    ([[['에', '이'], ['피'], ['아', '이']]], "api".toList),
    ([[['유'], ['아', '이']]], "ui".toList),
    ([[['디'], ['비']]], "db".toList),
    ([[['에', '스'], ['큐'], ['엘']]], "sql".toList),
    ([[['제', '이'], ['에', '스'], ['온']], [['제', '이', '슨']]], "json".toList),
    ([[['피'], ['디'], ['에', '프']]], "pdf".toList),
    ([[['시'], ['에', '스'], ['브', '이']]], "csv".toList),
    ([[['유'], ['알'], ['엘']]], "url".toList),
    ([[['에', '이'], ['더', '블', '유'], ['에', '스']],
      [['아', '마', '존'], ['웹'], ['서', '비', '스']]], "aws".toList) ]

/-- helpers/query.py ko_tech_aliases: apply the alias rules in order. -/
def koTechAliases (l : List Char) : List Char :=
  aliasRules.foldl (fun acc r => aliasSub r.1 r.2 acc.length acc) l

/-- The non-alias tail of full normalization: lowercase, insert spaces at
Korean-ASCII boundaries, turn dashes into spaces, strip punctuation,
collapse whitespace. -/
def normTail (l : List Char) : List Char :=
  collapseWs (punctToSpace (dashToSpace
    (insertBoundary isAld isHangul
      (insertBoundary isHangul isAld (l.map pyLower)))))

/-- helpers/query.py normalize_query in full mode (NFC is the identity on
the modeled universe). -/
def normFullL (l : List Char) : List Char :=
  normTail (koTechAliases l)

/-- String-level full normalization. -/
def normalizeFull (s : String) : String := String.mk (normFullL s.toList)

/-- Characters that str.lower leaves unchanged (no ASCII capital). -/
def lowOk (c : Char) : Prop := ¬(65 ≤ c.toNat ∧ c.toNat ≤ 90)

/-- Char.ofNat round-trips on small scalars. -/
theorem toNat_ofNat_small (n : Nat) (h : n < 0xd800) : (Char.ofNat n).toNat = n := by
  unfold Char.ofNat
  split
  · rfl
  · omega

/-- Lowering always yields a non-capital character. -/
theorem pyLower_lowOk (c : Char) : lowOk (pyLower c) := by
  unfold pyLower
  split
  · rename_i h
    have := toNat_ofNat_small (c.toNat + 32) (by omega)
    unfold lowOk
    omega
  · rename_i h
    unfold lowOk
    omega

/-- Lowering is the identity on non-capital characters. -/
theorem pyLower_id_of_lowOk {c : Char} (h : lowOk c) : pyLower c = c := by
  unfold pyLower
  rw [if_neg h]

/-- The space character is neither Hangul, ASCII lower or digit, a dash,
a capital, nor a word character, and is whitespace. -/
theorem space_class :
    isHangul ' ' = false ∧ isAld ' ' = false ∧ (' ' ≠ '-') ∧ lowOk ' ' ∧
    (pyWordChar ' ' || pySpace ' ') = true ∧ pySpace ' ' = true := by
  refine ⟨by decide, by decide, by decide, ?_, by decide, by decide⟩
  unfold lowOk
  decide

/-- Provenance of boundary insertion: output characters are input
characters or spaces. -/
theorem mem_insertBoundary (p q : Char → Bool) :
    ∀ (l : List Char), ∀ c ∈ insertBoundary p q l, c ∈ l ∨ c = ' ' := by
  intro l
  induction l with
  | nil => intro c hc; cases hc
  | cons x xs ih =>
    match xs with
    | [] =>
      intro c hc
      simp only [insertBoundary] at hc
      exact Or.inl hc
    | y :: rest =>
      intro c hc
      simp only [insertBoundary] at hc
      split at hc
      · rcases List.mem_cons.mp hc with h | h
        · exact Or.inl (h ▸ List.mem_cons_self _ _)
        · rcases List.mem_cons.mp h with h | h
          · exact Or.inr h
          · rcases ih c h with h | h
            · exact Or.inl (List.mem_cons_of_mem _ h)
            · exact Or.inr h
      · rcases List.mem_cons.mp hc with h | h
        · exact Or.inl (h ▸ List.mem_cons_self _ _)
        · rcases ih c h with h | h
          · exact Or.inl (List.mem_cons_of_mem _ h)
          · exact Or.inr h

/-- Boundary insertion keeps the head of the list. -/
theorem insertBoundary_head (p q : Char → Bool) (x : Char) (xs : List Char) :
    (insertBoundary p q (x :: xs)).head? = some x := by
  match xs with
  | [] => rfl
  | y :: rest =>
    simp only [insertBoundary]
    split <;> rfl

/-- Boundary insertion establishes the absence of (p-char, q-char)
adjacencies, provided the space matches neither class. -/
theorem chain_insertBoundary_est (p q : Char → Bool)
    (hp : p ' ' = false) (hq : q ' ' = false) :
    ∀ (l : List Char),
      (insertBoundary p q l).Chain' (fun a b => ¬(p a = true ∧ q b = true)) := by
  intro l
  induction l with
  | nil => simp [insertBoundary]
  | cons x xs ih =>
    match xs with
    | [] => simp [insertBoundary]
    | y :: rest =>
      simp only [insertBoundary]
      split
      · rename_i hxy
        refine List.chain'_cons'.mpr ⟨?_, List.chain'_cons'.mpr ⟨?_, ih⟩⟩
        · intro z hz
          simp only [List.head?_cons, Option.mem_def, Option.some.injEq] at hz
          subst hz
          simp [hq]
        · intro z hz
          rw [insertBoundary_head] at hz
          simp only [Option.mem_def, Option.some.injEq] at hz
          subst hz
          simp [hp]
      · rename_i hxy
        refine List.chain'_cons'.mpr ⟨?_, ih⟩
        intro z hz
        rw [insertBoundary_head] at hz
        simp only [Option.mem_def, Option.some.injEq] at hz
        subst hz
        intro hcon
        exact hxy (by simp [hcon.1, hcon.2])

/-- Boundary insertion preserves any space-absorbed adjacency
invariant. -/
theorem chain_insertBoundary_pres (p q : Char → Bool) {R : Char → Char → Prop}
    (hr1 : ∀ a, R a ' ') (hr2 : ∀ b, R ' ' b) :
    ∀ (l : List Char), l.Chain' R → (insertBoundary p q l).Chain' R := by
  intro l
  induction l with
  | nil => intro _; simp [insertBoundary]
  | cons x xs ih =>
    match xs with
    | [] => intro _; simp [insertBoundary]
    | y :: rest =>
      intro hch
      obtain ⟨hxy, hrest⟩ := List.chain'_cons'.mp hch
      simp only [insertBoundary]
      split
      · refine List.chain'_cons'.mpr ⟨?_, List.chain'_cons'.mpr ⟨?_, ih hrest⟩⟩
        · intro z hz
          simp only [List.head?_cons, Option.mem_def, Option.some.injEq] at hz
          subst hz
          exact hr1 x
        · intro z hz
          rw [insertBoundary_head] at hz
          simp only [Option.mem_def, Option.some.injEq] at hz
          subst hz
          exact hr2 y
      · refine List.chain'_cons'.mpr ⟨?_, ih hrest⟩
        intro z hz
        rw [insertBoundary_head] at hz
        simp only [Option.mem_def, Option.some.injEq] at hz
        subst hz
        exact hxy y (by simp)

/-- Boundary insertion is the identity when no (p-char, q-char) pair is
adjacent. -/
theorem insertBoundary_id (p q : Char → Bool) :
    ∀ (l : List Char), l.Chain' (fun a b => ¬(p a = true ∧ q b = true)) →
      insertBoundary p q l = l := by
  intro l
  induction l with
  | nil => intro _; rfl
  | cons x xs ih =>
    match xs with
    | [] => intro _; rfl
    | y :: rest =>
      intro hch
      obtain ⟨hxy, hrest⟩ := List.chain'_cons'.mp hch
      simp only [insertBoundary]
      split
      · rename_i hpq
        exact absurd (by simpa using hpq) (by simpa using hxy y (by simp))
      · rw [ih hrest]

/-- Provenance of whitespace squeezing: output characters are input
characters or spaces. -/
theorem mem_squeezeGo :
    ∀ (l : List Char) (b : Bool), ∀ c ∈ squeezeGo l b, c ∈ l ∨ c = ' ' := by
  intro l
  induction l with
  | nil => intro b c hc; cases hc
  | cons x xs ih =>
    intro b c hc
    simp only [squeezeGo] at hc
    split at hc
    · split at hc
      · rcases ih true c hc with h | h
        · exact Or.inl (List.mem_cons_of_mem _ h)
        · exact Or.inr h
      · rcases List.mem_cons.mp hc with h | h
        · exact Or.inr h
        · rcases ih true c h with h | h
          · exact Or.inl (List.mem_cons_of_mem _ h)
          · exact Or.inr h
    · rcases List.mem_cons.mp hc with h | h
      · exact Or.inl (h ▸ List.mem_cons_self _ _)
      · rcases ih false c h with h | h
        · exact Or.inl (List.mem_cons_of_mem _ h)
        · exact Or.inr h

/-- Whitespace characters in the squeezed output are literal spaces. -/
theorem squeezeGo_space_char :
    ∀ (l : List Char) (b : Bool), ∀ c ∈ squeezeGo l b,
      pySpace c = true → c = ' ' := by
  intro l
  induction l with
  | nil => intro b c hc; cases hc
  | cons x xs ih =>
    intro b c hc hsp
    simp only [squeezeGo] at hc
    split at hc
    · split at hc
      · exact ih true c hc hsp
      · rcases List.mem_cons.mp hc with h | h
        · exact h
        · exact ih true c h hsp
    · rename_i hx
      rcases List.mem_cons.mp hc with h | h
      · exact absurd (h ▸ hsp) (by simpa using hx)
      · exact ih false c h hsp

/-- Head of the squeezed output in non-space state: the head of the
input, with whitespace replaced by a space. -/
theorem squeezeGo_head_false (l : List Char) :
    (squeezeGo l false).head? =
      l.head?.map (fun d => if pySpace d then ' ' else d) := by
  match l with
  | [] => rfl
  | c :: rest =>
    simp only [squeezeGo]
    by_cases h : pySpace c
    · simp [h]
    · simp [h]

/-- Head of the squeezed output in space state is never whitespace. -/
theorem squeezeGo_head_true :
    ∀ (l : List Char), ∀ c, (squeezeGo l true).head? = some c →
      pySpace c = false := by
  intro l
  induction l with
  | nil => intro c hc; cases hc
  | cons x xs ih =>
    intro c hc
    simp only [squeezeGo] at hc
    split at hc
    · exact ih c hc
    · rename_i hx
      simp only [List.head?_cons, Option.some.injEq] at hc
      subst hc
      simpa using hx

/-- The squeezed output never has two adjacent whitespace characters. -/
theorem chain_squeezeGo_noSS :
    ∀ (l : List Char) (b : Bool),
      (squeezeGo l b).Chain' (fun a c => ¬(pySpace a = true ∧ pySpace c = true)) := by
  intro l
  induction l with
  | nil => intro b; simp [squeezeGo]
  | cons x xs ih =>
    intro b
    simp only [squeezeGo]
    split
    · split
      · exact ih true
      · refine List.chain'_cons'.mpr ⟨?_, ih true⟩
        intro z hz hcon
        exact (by simpa [squeezeGo_head_true xs z hz] using hcon.2)
    · rename_i hx
      refine List.chain'_cons'.mpr ⟨?_, ih false⟩
      intro z hz hcon
      exact absurd hcon.1 (by simpa using hx)

/-- Squeezing preserves space-absorbed adjacency invariants. -/
theorem chain_squeezeGo_pres {R : Char → Char → Prop}
    (hr1 : ∀ a, R a ' ') (hr2 : ∀ b, R ' ' b) :
    ∀ (l : List Char), l.Chain' R → ∀ b, (squeezeGo l b).Chain' R := by
  intro l
  induction l with
  | nil => intro _ b; simp [squeezeGo]
  | cons x xs ih =>
    intro hch b
    have hxs : xs.Chain' R := hch.tail
    simp only [squeezeGo]
    split
    · split
      · exact ih hxs true
      · refine List.chain'_cons'.mpr ⟨?_, ih hxs true⟩
        intro z hz
        exact hr2 z
    · rename_i hx
      refine List.chain'_cons'.mpr ⟨?_, ih hxs false⟩
      intro z hz
      rw [squeezeGo_head_false] at hz
      match hxh : xs.head? with
      | none => rw [hxh] at hz; cases hz
      | some d =>
        rw [hxh] at hz
        simp only [Option.map_some', Option.mem_def, Option.some.injEq] at hz
        by_cases hd : pySpace d
        · rw [if_pos hd] at hz
          exact hz ▸ hr1 x
        · rw [if_neg hd] at hz
          subst hz
          exact (List.chain'_cons'.mp hch).1 d hxh

/-- Squeezing is the identity on lists whose spaces are single literal
spaces. -/
theorem squeezeGo_id :
    ∀ (l : List Char),
      (∀ c ∈ l, pySpace c = true → c = ' ') →
      l.Chain' (fun a c => ¬(pySpace a = true ∧ pySpace c = true)) →
      squeezeGo l false = l ∧
      (∀ c, l.head? = some c → pySpace c = false → squeezeGo l true = l) := by
  intro l
  induction l with
  | nil => intro _ _; exact ⟨rfl, fun c hc => by cases hc⟩
  | cons x xs ih =>
    intro hsp hch
    have hxs := ih (fun c hc => hsp c (List.mem_cons_of_mem _ hc)) hch.tail
    constructor
    · simp only [squeezeGo]
      by_cases hx : pySpace x
      · have hx' : x = ' ' := hsp x (List.mem_cons_self _ _) hx
        rw [if_pos hx, if_neg (Bool.false_ne_true)]
        match hxh : xs.head? with
        | none =>
          match xs, hxh with
          | [], _ => simp [squeezeGo, hx']
        | some d =>
          have hd : pySpace d = false := by
            by_contra hcon
            have hd' : pySpace d = true := by simpa using hcon
            have := (List.chain'_cons'.mp hch).1 d hxh
            exact this ⟨hx, hd'⟩
          rw [hxs.2 d hxh hd, hx']
      · rw [if_neg hx, hxs.1]
    · intro c hc hcf
      simp only [List.head?_cons, Option.some.injEq] at hc
      subst hc
      simp only [squeezeGo]
      rw [if_neg (by simpa using hcf), hxs.1]

/-- Provenance of strip: output characters come from the input. -/
theorem mem_stripWs (l : List Char) : ∀ c ∈ stripWs l, c ∈ l := by
  intro c hc
  unfold stripWs at hc
  rw [List.mem_reverse] at hc
  have h1 := (List.dropWhile_suffix pySpace).subset hc
  rw [List.mem_reverse] at h1
  exact (List.dropWhile_suffix pySpace).subset h1

/-- dropWhile preserves adjacency invariants. -/
theorem chain_dropWhile {α : Type} {R : α → α → Prop} (p : α → Bool) :
    ∀ (m : List α), m.Chain' R → (m.dropWhile p).Chain' R := by
  intro m
  induction m with
  | nil => intro _; simp
  | cons x xs ih =>
    intro hch
    by_cases hx : p x
    · rw [List.dropWhile_cons_of_pos hx]
      exact ih hch.tail
    · rw [List.dropWhile_cons_of_neg hx]
      exact hch

/-- Strip preserves adjacency invariants. -/
theorem chain_stripWs {R : Char → Char → Prop}
    (l : List Char) (h : l.Chain' R) : (stripWs l).Chain' R := by
  have h1 := chain_dropWhile pySpace l h
  have h2 : ((l.dropWhile pySpace).reverse).Chain' (flip R) :=
    List.chain'_reverse.mpr h1
  have h3 := chain_dropWhile pySpace _ h2
  unfold stripWs
  exact List.chain'_reverse.mpr h3

/-- Strip is the identity when both ends are not whitespace. -/
theorem stripWs_id (l : List Char)
    (hhead : ∀ c, l.head? = some c → pySpace c = false)
    (hlast : ∀ c, l.getLast? = some c → pySpace c = false) :
    stripWs l = l := by
  have hdrop : ∀ (m : List Char), (∀ c, m.head? = some c → pySpace c = false) →
      m.dropWhile pySpace = m := by
    intro m hm
    match m with
    | [] => rfl
    | c :: rest => exact List.dropWhile_cons_of_neg (by simp [hm c rfl])
  unfold stripWs
  rw [hdrop l hhead]
  rw [hdrop l.reverse (by
    intro c hc
    rw [List.head?_reverse] at hc
    exact hlast c hc)]
  exact List.reverse_reverse l

/-- The head of a dropWhile output never satisfies the predicate. -/
theorem dropWhile_head {α : Type} (p : α → Bool) :
    ∀ (m : List α) (c : α), (m.dropWhile p).head? = some c → p c = false := by
  intro m
  induction m with
  | nil => intro c hc; cases hc
  | cons x xs ih =>
    intro c hc
    by_cases hx : p x
    · rw [List.dropWhile_cons_of_pos hx] at hc
      exact ih c hc
    · rw [List.dropWhile_cons_of_neg hx] at hc
      simp only [List.head?_cons, Option.some.injEq] at hc
      subst hc
      simpa using hx

/-- The ends of a stripped list are never whitespace. -/
theorem stripWs_ends (m : List Char) :
    (∀ c, (stripWs m).head? = some c → pySpace c = false) ∧
    (∀ c, (stripWs m).getLast? = some c → pySpace c = false) := by
  constructor
  · intro c hc
    unfold stripWs at hc
    rw [List.head?_reverse] at hc
    obtain ⟨s, hs⟩ := List.dropWhile_suffix (l := (m.dropWhile pySpace).reverse) pySpace
    by_cases hw : (m.dropWhile pySpace).reverse.dropWhile pySpace = []
    · rw [hw] at hc; cases hc
    · have heq : ((m.dropWhile pySpace).reverse.dropWhile pySpace).getLast? =
          ((m.dropWhile pySpace).reverse).getLast? := by
        conv_rhs => rw [← hs]
        exact (List.getLast?_append_of_ne_nil s hw).symm
      rw [heq, List.getLast?_reverse] at hc
      exact dropWhile_head pySpace m c hc
  · intro c hc
    unfold stripWs at hc
    rw [List.getLast?_reverse] at hc
    exact dropWhile_head pySpace _ c hc

/-- Provenance of collapse: output characters are input characters or
spaces. -/
theorem mem_collapseWs (l : List Char) : ∀ c ∈ collapseWs l, c ∈ l ∨ c = ' ' := by
  intro c hc
  exact mem_squeezeGo l false c (mem_stripWs _ c hc)

/-- Mapping by a function that fixes or blanks each character preserves
space-absorbed adjacency invariants. -/
theorem chain_map_space {R : Char → Char → Prop} (f : Char → Char)
    (hf : ∀ c, f c = c ∨ f c = ' ')
    (hr1 : ∀ a, R a ' ') (hr2 : ∀ b, R ' ' b) :
    ∀ (l : List Char), l.Chain' R → (l.map f).Chain' R := by
  intro l h
  rw [List.chain'_map]
  refine h.imp ?_
  intro a b hab
  rcases hf a with ha | ha <;> rcases hf b with hb | hb <;> rw [ha, hb]
  · exact hab
  · exact hr1 _
  · exact hr2 _
  · exact hr1 _

/-- Normal form of the non-alias normalization tail: lowercase, word or
space characters only, no dashes, single literal spaces, no
Hangul-ASCII adjacency in either direction, and non-space ends. -/
structure IsNorm (l : List Char) : Prop where
  low : ∀ c ∈ l, lowOk c
  word : ∀ c ∈ l, (pyWordChar c || pySpace c) = true
  nodash : ∀ c ∈ l, c ≠ '-'
  spOne : ∀ c ∈ l, pySpace c = true → c = ' '
  noHA : l.Chain' (fun a b => ¬(isHangul a = true ∧ isAld b = true))
  noAH : l.Chain' (fun a b => ¬(isAld a = true ∧ isHangul b = true))
  noSS : l.Chain' (fun a b => ¬(pySpace a = true ∧ pySpace b = true))
  headOk : ∀ c, l.head? = some c → pySpace c = false
  lastOk : ∀ c, l.getLast? = some c → pySpace c = false

/-- Provenance of a fix-or-blank character map. -/
theorem mem_map_space (f : Char → Char) (hf : ∀ c, f c = c ∨ f c = ' ')
    (l : List Char) : ∀ c ∈ l.map f, c ∈ l ∨ c = ' ' := by
  intro c hc
  obtain ⟨a, ha, hface⟩ := List.mem_map.mp hc
  rcases hf a with h | h
  · exact Or.inl (by rw [← hface, h]; exact ha)
  · exact Or.inr (by rw [← hface, h])

/-- The dash map fixes or blanks every character. -/
theorem dash_fix_or_blank (c : Char) :
    ((if c == '-' then ' ' else c) = c) ∨ ((if c == '-' then ' ' else c) = ' ') := by
  by_cases h : c == '-'
  · exact Or.inr (by rw [if_pos h])
  · exact Or.inl (by rw [if_neg h])

/-- The punctuation map fixes or blanks every character. -/
theorem punct_fix_or_blank (c : Char) :
    ((if pyWordChar c || pySpace c then c else ' ') = c) ∨
    ((if pyWordChar c || pySpace c then c else ' ') = ' ') := by
  by_cases h : pyWordChar c || pySpace c
  · exact Or.inl (by rw [if_pos h])
  · exact Or.inr (by rw [if_neg h])

/-- The normalization tail always produces a normal-form string. -/
theorem normTail_isNorm (l : List Char) : IsNorm (normTail l) := by
  have habsHA1 : ∀ a : Char, ¬(isHangul a = true ∧ isAld ' ' = true) :=
    fun a hcon => absurd hcon.2 (by decide)
  have habsHA2 : ∀ b : Char, ¬(isHangul ' ' = true ∧ isAld b = true) :=
    fun b hcon => absurd hcon.1 (by decide)
  have habsAH1 : ∀ a : Char, ¬(isAld a = true ∧ isHangul ' ' = true) :=
    fun a hcon => absurd hcon.2 (by decide)
  have habsAH2 : ∀ b : Char, ¬(isAld ' ' = true ∧ isHangul b = true) :=
    fun b hcon => absurd hcon.1 (by decide)
  have hnorm : normTail l =
      collapseWs (punctToSpace (dashToSpace (insertBoundary isAld isHangul
        (insertBoundary isHangul isAld (l.map pyLower))))) := rfl
  have hmem5 : ∀ c ∈ punctToSpace (dashToSpace (insertBoundary isAld isHangul
      (insertBoundary isHangul isAld (l.map pyLower)))), c ∈ l.map pyLower ∨ c = ' ' := by
    intro c hc
    rcases mem_map_space _ punct_fix_or_blank _ c hc with hc | hc
    · rcases mem_map_space _ dash_fix_or_blank _ c hc with hc | hc
      · rcases mem_insertBoundary isAld isHangul _ c hc with hc | hc
        · exact mem_insertBoundary isHangul isAld _ c hc
        · exact Or.inr hc
      · exact Or.inr hc
    · exact Or.inr hc
  have hmemOut : ∀ c ∈ normTail l, c ∈ l.map pyLower ∨ c = ' ' := by
    intro c hc
    rw [hnorm] at hc
    rcases mem_collapseWs _ c hc with hc | hc
    · exact hmem5 c hc
    · exact Or.inr hc
  refine ⟨?_, ?_, ?_, ?_, ?_, ?_, ?_, ?_, ?_⟩
  · intro c hc
    rcases hmemOut c hc with h | h
    · obtain ⟨a, -, ha⟩ := List.mem_map.mp h
      exact ha ▸ pyLower_lowOk a
    · exact h ▸ space_class.2.2.2.1
  · intro c hc
    rw [hnorm] at hc
    rcases mem_collapseWs _ c hc with hc | hc
    · obtain ⟨a, -, ha⟩ := List.mem_map.mp hc
      by_cases h : pyWordChar a || pySpace a
      · rw [if_pos h] at ha
        exact ha ▸ h
      · rw [if_neg h] at ha
        exact ha ▸ space_class.2.2.2.2.1
    · exact hc ▸ space_class.2.2.2.2.1
  · intro c hc
    rw [hnorm] at hc
    rcases mem_collapseWs _ c hc with hc | hc
    · rcases mem_map_space _ punct_fix_or_blank _ c hc with hc | hc
      · obtain ⟨a, -, ha⟩ := List.mem_map.mp hc
        by_cases h : a == '-'
        · rw [if_pos h] at ha
          exact ha ▸ (by decide)
        · rw [if_neg h] at ha
          exact ha ▸ (by simpa using h)
      · exact hc ▸ (by decide)
    · exact hc ▸ (by decide)
  · intro c hc hsp
    rw [hnorm] at hc
    unfold collapseWs at hc
    exact squeezeGo_space_char _ false c (mem_stripWs _ c hc) hsp
  · rw [hnorm]
    unfold collapseWs
    refine chain_stripWs _ (chain_squeezeGo_pres habsHA1 habsHA2 _ ?_ false)
    refine chain_map_space _ punct_fix_or_blank habsHA1 habsHA2 _ ?_
    refine chain_map_space _ dash_fix_or_blank habsHA1 habsHA2 _ ?_
    refine chain_insertBoundary_pres _ _ habsHA1 habsHA2 _ ?_
    exact chain_insertBoundary_est isHangul isAld (by decide) (by decide) _
  · rw [hnorm]
    unfold collapseWs
    refine chain_stripWs _ (chain_squeezeGo_pres habsAH1 habsAH2 _ ?_ false)
    refine chain_map_space _ punct_fix_or_blank habsAH1 habsAH2 _ ?_
    refine chain_map_space _ dash_fix_or_blank habsAH1 habsAH2 _ ?_
    exact chain_insertBoundary_est isAld isHangul (by decide) (by decide) _
  · rw [hnorm]
    unfold collapseWs
    exact chain_stripWs _ (chain_squeezeGo_noSS _ false)
  · rw [hnorm]
    unfold collapseWs
    exact (stripWs_ends _).1
  · rw [hnorm]
    unfold collapseWs
    exact (stripWs_ends _).2

/-- The normalization tail is the identity on normal-form strings. -/
theorem normTail_id {t : List Char} (h : IsNorm t) : normTail t = t := by
  have h1 : t.map pyLower = t := by
    have he : List.map pyLower t = List.map id t :=
      List.map_congr_left (fun c hc => pyLower_id_of_lowOk (h.low c hc))
    rw [he, List.map_id]
  have h2 : insertBoundary isHangul isAld t = t := insertBoundary_id _ _ t h.noHA
  have h3 : insertBoundary isAld isHangul t = t := insertBoundary_id _ _ t h.noAH
  have h4 : dashToSpace t = t := by
    unfold dashToSpace
    have he : List.map (fun c => if c == '-' then ' ' else c) t = List.map id t := by
      refine List.map_congr_left ?_
      intro c hc
      simp only [id]
      rw [if_neg (by simpa using h.nodash c hc)]
    rw [he, List.map_id]
  have h5 : punctToSpace t = t := by
    unfold punctToSpace
    have he : List.map (fun c => if pyWordChar c || pySpace c then c else ' ') t
        = List.map id t := by
      refine List.map_congr_left ?_
      intro c hc
      simp only [id]
      rw [if_pos (h.word c hc)]
    rw [he, List.map_id]
  have h6 : collapseWs t = t := by
    unfold collapseWs
    rw [(squeezeGo_id t h.spOne h.noSS).1]
    exact stripWs_id t h.headOk h.lastOk
  unfold normTail
  rw [h1, h2, h3, h4, h5, h6]

/-- C7 counterexample: full-mode normalization is not idempotent.  A
Korean phonetic rendering whose syllables are separated by dashes is not
rewritten by the alias table on the first pass (dashes are not
whitespace), but the first pass turns the dashes into spaces, so the
second pass aliases it to an ASCII acronym. -/
theorem normalize_full_not_idempotent_cex :
    normalizeFull (normalizeFull "지-피-티") ≠ normalizeFull "지-피-티" ∧
    normalizeFull "지-피-티" = "지 피 티" ∧
    normalizeFull (normalizeFull "지-피-티") = "gpt" := by
  refine ⟨?_, by decide, by decide⟩
  decide

/-- C7 (amended): full-mode normalization is idempotent on every query
whose once-normalized form is a fixed point of the Korean tech-alias
rewriting; the counterexample shows the alias pass is the only source of
non-idempotence. -/
theorem normalize_full_idem_of_alias_fixed (q : String)
    (h : koTechAliases (normFullL q.toList) = normFullL q.toList) :
    normalizeFull (normalizeFull q) = normalizeFull q := by
  have hmk : ∀ (x : List Char), (String.mk x).toList = x := fun x => rfl
  have hdef : ∀ (y : List Char), normFullL y = normTail (koTechAliases y) :=
    fun y => rfl
  unfold normalizeFull
  rw [hmk, hdef (normFullL q.toList), h, hdef q.toList,
    normTail_id (normTail_isNorm (koTechAliases q.toList))]

/-- C7 witness: the amended idempotence theorem applied at a concrete
query, discharging the alias fixed-point hypothesis there. -/
theorem normalize_full_idem_witness :
    normalizeFull (normalizeFull "Ab c") = normalizeFull "Ab c" :=
  normalize_full_idem_of_alias_fixed "Ab c" (by decide)

/-!
Stable keys (compressors/heuristic.py doc_stable_key) and the kept-set
construction of the heuristic compressor.
-/

/-- Stable-key values.  Python compares raw values: a doc_id string and
an equal metadata id string are the same key, and the two tuple keys
(file_id, chunk_index) and (title, chunk_index) compare as plain pairs,
exactly as Python tuples do. -/
inductive SKey where
  | v (x : MVal)
  | pair (s : String) (ci : Int)
  | oid (n : Nat)
deriving DecidableEq, Repr

/-- First branch of doc_stable_key: a truthy doc_id. -/
def skDocId (d : Doc) : Option SKey :=
  match d.doc_id with
  | some s => if s ≠ "" then some (.v (.s s)) else none
  | none => none

/-- Second branch: truthy file_id together with a non-None chunk_index. -/
def skFilePair (d : Doc) : Option SKey :=
  match d.file_id, d.chunk_index with
  | some f, some ci => if f ≠ "" then some (.pair f ci) else none
  | _, _ => none

/-- Third branch: first truthy metadata id among weaviate_id, id, uuid,
chunk_id. -/
def skMeta (d : Doc) : Option SKey :=
  (([d.md "weaviate_id", d.md "id", d.md "uuid", d.md "chunk_id"].filterMap id).find?
    MVal.truthy).map SKey.v

/-- Fourth branch: truthy title together with a non-None chunk_index. -/
def skTitlePair (d : Doc) : Option SKey :=
  match d.title, d.chunk_index with
  | some t, some ci => if t ≠ "" then some (.pair t ci) else none
  | _, _ => none

/-- compressors/heuristic.py doc_stable_key (lines 31-60), with the
object-identity fallback supplied as the position of the document. -/
def docStableKey (oid : Nat) (d : Doc) : SKey :=
  ((skDocId d).orElse fun _ => (skFilePair d).orElse fun _ =>
    (skMeta d).orElse fun _ => skTitlePair d).getD (.oid oid)

/-- The stable-key chain exactly as the claim words it: the first
available of doc_id; the pair (file_id, chunk_index); metadata
weaviate_id, id, uuid, or chunk_id; the pair (title, chunk_index);
otherwise object identity. -/
def specStableKey (oid : Nat) (d : Doc) : SKey :=
  if optStrTruthy d.doc_id then .v (.s (d.doc_id.getD ""))
  else if optStrTruthy d.file_id && d.chunk_index.isSome then
    .pair (d.file_id.getD "") (d.chunk_index.getD 0)
  else
    match skMeta d with
    | some k => k
    | none =>
      if optStrTruthy d.title && d.chunk_index.isSome then
        .pair (d.title.getD "") (d.chunk_index.getD 0)
      else .oid oid

/-- Characterization of the doc_id branch when the condition holds. -/
theorem skDocId_pos {d : Doc} (h : optStrTruthy d.doc_id = true) :
    skDocId d = some (.v (.s (d.doc_id.getD ""))) := by
  unfold skDocId
  match hd : d.doc_id with
  | some s =>
    rw [hd] at h
    unfold optStrTruthy at h
    show (if s ≠ "" then some (SKey.v (MVal.s s)) else none)
      = some (SKey.v (MVal.s ((some s).getD "")))
    rw [if_pos (by simpa using h)]
    rfl
  | none =>
    rw [hd] at h
    cases h

/-- Characterization of the doc_id branch when the condition fails. -/
theorem skDocId_neg {d : Doc} (h : optStrTruthy d.doc_id = false) :
    skDocId d = none := by
  unfold skDocId
  match hd : d.doc_id with
  | some s =>
    rw [hd] at h
    unfold optStrTruthy at h
    show (if s ≠ "" then some (SKey.v (MVal.s s)) else none) = none
    rw [if_neg (by simpa using h)]
  | none => rfl

/-- Characterization of the file-pair branch when the condition holds. -/
theorem skFilePair_pos {d : Doc}
    (h : (optStrTruthy d.file_id && d.chunk_index.isSome) = true) :
    skFilePair d = some (.pair (d.file_id.getD "") (d.chunk_index.getD 0)) := by
  unfold skFilePair
  match hf : d.file_id, hc : d.chunk_index with
  | some f, some ci =>
    rw [hf, hc] at h
    unfold optStrTruthy at h
    show (if f ≠ "" then some (SKey.pair f ci) else none)
      = some (SKey.pair ((some f).getD "") ((some ci).getD 0))
    rw [if_pos (by simpa using (Bool.and_eq_true_iff.mp h).1)]
    rfl
  | some f, none => rw [hf, hc] at h; simp at h
  | none, _ => rw [hf] at h; simp [optStrTruthy] at h

/-- Characterization of the file-pair branch when the condition fails. -/
theorem skFilePair_neg {d : Doc}
    (h : (optStrTruthy d.file_id && d.chunk_index.isSome) = false) :
    skFilePair d = none := by
  unfold skFilePair
  match hf : d.file_id, hc : d.chunk_index with
  | some f, some ci =>
    rw [hf, hc] at h
    unfold optStrTruthy at h
    simp only [Option.isSome_some, Bool.and_true] at h
    show (if f ≠ "" then some (SKey.pair f ci) else none) = none
    rw [if_neg (by simpa using h)]
  | some f, none => rfl
  | none, _ => rfl

/-- Characterization of the title-pair branch when the condition holds. -/
theorem skTitlePair_pos {d : Doc}
    (h : (optStrTruthy d.title && d.chunk_index.isSome) = true) :
    skTitlePair d = some (.pair (d.title.getD "") (d.chunk_index.getD 0)) := by
  unfold skTitlePair
  match hf : d.title, hc : d.chunk_index with
  | some t, some ci =>
    rw [hf, hc] at h
    unfold optStrTruthy at h
    show (if t ≠ "" then some (SKey.pair t ci) else none)
      = some (SKey.pair ((some t).getD "") ((some ci).getD 0))
    rw [if_pos (by simpa using (Bool.and_eq_true_iff.mp h).1)]
    rfl
  | some t, none => rw [hf, hc] at h; simp at h
  | none, _ => rw [hf] at h; simp [optStrTruthy] at h

/-- Characterization of the title-pair branch when the condition fails. -/
theorem skTitlePair_neg {d : Doc}
    (h : (optStrTruthy d.title && d.chunk_index.isSome) = false) :
    skTitlePair d = none := by
  unfold skTitlePair
  match hf : d.title, hc : d.chunk_index with
  | some t, some ci =>
    rw [hf, hc] at h
    unfold optStrTruthy at h
    simp only [Option.isSome_some, Bool.and_true] at h
    show (if t ≠ "" then some (SKey.pair t ci) else none) = none
    rw [if_neg (by simpa using h)]
  | some t, none => rfl
  | none, _ => rfl

/-- Maximal runs of characters satisfying p, in order (regex findall of
a repeated character class). -/
def runsGo (p : Char → Bool) : List Char → List Char → List (List Char)
  | [], cur => if cur.isEmpty then [] else [cur.reverse]
  | c :: rest, cur =>
    if p c then runsGo p rest (c :: cur)
    else if cur.isEmpty then runsGo p rest []
    else cur.reverse :: runsGo p rest []

/-- Entry point for run extraction. -/
def runsOf (p : Char → Bool) (l : List Char) : List (List Char) := runsGo p l []

/-- helpers/query.py kw_tokens: ASCII runs of length at least 2 and
Hangul runs of length at least 2 from the fully normalized query, with
stopwords (stripped and lowercased) removed.  The stopword list is a
parameter (settings.ko_stop_tokens). -/
def kwTokens (stops : List String) (q : List Char) : List String :=
  let nq := normFullL q
  let asciiWords := (runsOf isAld nq).filter fun r => 2 ≤ r.length
  let koreanWords := (runsOf isHangul nq).filter fun r => 2 ≤ r.length
  let toks := (asciiWords ++ koreanWords).map String.mk
  let stopset := (stops.filter fun s => s ≠ "").map
    fun s => String.mk ((stripWs s.toList).map pyLower)
  toks.filter fun t => ¬ String.mk (t.toList.map pyLower) ∈ stopset

/-- Whether the needle starts the haystack. -/
def startsWithB : List Char → List Char → Bool
  | [], _ => true
  | _ :: _, [] => false
  | c :: cs, d :: ds => c == d && startsWithB cs ds

/-- Python substring containment on character lists. -/
def substrB (n : List Char) : List Char → Bool
  | [] => n.isEmpty
  | h@(_ :: t) => startsWithB n h || substrB n t

/-- helpers/matching.py kw_hit: any token occurs (case-insensitively) in
the blob built from page text, filename and filename_kw. -/
def kwHit (toks : List String) (d : Doc) : Bool :=
  let fname := match d.md "filename" with
    | some v => if v.truthy then v.str else ""
    | none => ""
  let fnameKw := match d.md "filename_kw" with
    | some v => if v.truthy then v.str else ""
    | none => ""
  let blob := (d.page_content.toList ++ [' '] ++ fname.toList ++ [' '] ++
    fnameKw.toList).map pyLower
  toks.any fun t => substrB (t.toList.map pyLower) blob

/-- The keyword-guard scan of the heuristic compressor: the first
keyword_keep_limit documents that hit a query token, in input order. -/
def mustKeepGo (toks : List String) : List (Nat × Doc) → Nat → List (Nat × Doc)
  | [], _ => []
  | p :: rest, n =>
    if n = 0 then []
    else if kwHit toks p.2 then p :: mustKeepGo toks rest (n - 1)
    else mustKeepGo toks rest n

/-- One pass of the kept-set construction: append documents whose stable
key is not in the keep set yet. -/
def keptFold (st : List SKey × List (Nat × Doc)) (items : List (Nat × Doc)) :
    List SKey × List (Nat × Doc) :=
  items.foldl (fun st p =>
    let k := docStableKey p.1 p.2
    if k ∈ st.1 then st else (k :: st.1, st.2 ++ [p])) st

/-- compressors/heuristic.py lines 237-260: kept set seeded with the
anchor (first retrieved document), then keyword-guard documents, then
filtered documents, each deduplicated by stable key.  Documents are
paired with their object identity (position). -/
def heuristicKept (docs mustKeep filtered : List (Nat × Doc)) : List (Nat × Doc) :=
  let st0 : List SKey × List (Nat × Doc) :=
    match docs with
    | [] => ([], [])
    | a :: _ => ([docStableKey a.1 a.2], [a])
  (keptFold (keptFold st0 mustKeep) filtered).2

/-- Unfolding of the kept fold on a cons cell. -/
theorem keptFold_cons (st : List SKey × List (Nat × Doc)) (p : Nat × Doc)
    (rest : List (Nat × Doc)) :
    keptFold st (p :: rest) =
      keptFold (if docStableKey p.1 p.2 ∈ st.1 then st
        else (docStableKey p.1 p.2 :: st.1, st.2 ++ [p])) rest := rfl

/-- Invariant of the kept fold: keys of kept documents are registered and
pairwise distinct. -/
theorem keptFold_inv (items : List (Nat × Doc)) :
    ∀ (st : List SKey × List (Nat × Doc)),
      (∀ p ∈ st.2, docStableKey p.1 p.2 ∈ st.1) →
      st.2.Pairwise (fun a b => docStableKey a.1 a.2 ≠ docStableKey b.1 b.2) →
      (∀ p ∈ (keptFold st items).2, docStableKey p.1 p.2 ∈ (keptFold st items).1) ∧
      (keptFold st items).2.Pairwise
        (fun a b => docStableKey a.1 a.2 ≠ docStableKey b.1 b.2) := by
  induction items with
  | nil => intro st h1 h2; exact ⟨h1, h2⟩
  | cons p rest ih =>
    intro st h1 h2
    rw [keptFold_cons]
    by_cases hk : docStableKey p.1 p.2 ∈ st.1
    · rw [if_pos hk]
      exact ih st h1 h2
    · rw [if_neg hk]
      refine ih _ ?_ ?_
      · intro q hq
        rcases List.mem_append.mp hq with h | h
        · exact List.mem_cons_of_mem _ (h1 q h)
        · simp only [List.mem_singleton] at h
          subst h
          exact List.mem_cons_self _ _
      · rw [List.pairwise_append]
        refine ⟨h2, by simp, ?_⟩
        intro a ha b hb
        simp only [List.mem_singleton] at hb
        subst hb
        intro heq
        exact hk (heq ▸ h1 a ha)

/-- The kept set of the heuristic compressor never holds two documents
with the same stable key. -/
theorem heuristicKept_nodup_keys (docs mustKeep filtered : List (Nat × Doc)) :
    (heuristicKept docs mustKeep filtered).Pairwise
      (fun a b => docStableKey a.1 a.2 ≠ docStableKey b.1 b.2) := by
  unfold heuristicKept
  match docs with
  | [] =>
    have h0 := keptFold_inv mustKeep ([], []) (by simp) (by simp)
    exact (keptFold_inv filtered _ h0.1 h0.2).2
  | a :: rest =>
    have h0 := keptFold_inv mustKeep ([docStableKey a.1 a.2], [a])
      (by simp) (by simp)
    exact (keptFold_inv filtered _ h0.1 h0.2).2

/-- Rank of the total-order stand-in on Python floats. -/
def PFloat.rank : PFloat → Nat
  | .ninf => 0
  | .fin _ => 1
  | .inf => 2
  | .nan => 3

/-- Total-order comparison on Python floats used in sort keys: -inf below
finite values below inf.  Sorting with nan keys is unspecified in Python;
nan is placed maximal here and no claim depends on nan-keyed order. -/
def pfLe (a b : PFloat) : Bool :=
  match a, b with
  | .fin p, .fin q => p ≤ q
  | _, _ => a.rank ≤ b.rank

/-- Transitivity of the float comparison. -/
theorem pfLe_trans (a b c : PFloat) (h1 : pfLe a b = true) (h2 : pfLe b c = true) :
    pfLe a c = true := by
  cases a <;> cases b <;> cases c <;>
    simp_all [pfLe, PFloat.rank] <;> exact le_trans h1 h2

/-- Totality of the float comparison. -/
theorem pfLe_total (a b : PFloat) : (pfLe a b || pfLe b a) = true := by
  cases a <;> cases b <;> simp_all [pfLe, PFloat.rank] <;> exact le_total _ _

/-- Antisymmetry of the float comparison. -/
theorem pfLe_antisymm (a b : PFloat) (h1 : pfLe a b = true) (h2 : pfLe b a = true) :
    a = b := by
  cases a <;> cases b <;> simp_all [pfLe, PFloat.rank]
  exact le_antisymm h1 h2

/-- Python float negation. -/
def PFloat.neg : PFloat → PFloat
  | .fin q => .fin (-q)
  | .inf => .ninf
  | .ninf => .inf
  | .nan => .nan

/-- compressors/heuristic.py doc_rerank_score: the metadata rerank score
when present and convertible, else -inf. -/
def docRerankScore (d : Doc) : PFloat :=
  match d.md "rerank_score" with
  | some v => (v.toFloat).getD .ninf
  | none => .ninf

/-- Rerank-position map of the heuristic compressor (lines 176-185):
first input index per stable key. -/
def rerankPosGo : List (Nat × Doc) → Nat → List (SKey × Nat) → List (SKey × Nat)
  | [], _, acc => acc
  | p :: rest, i, acc =>
    let k := docStableKey p.1 p.2
    if (acc.lookup k).isSome then rerankPosGo rest (i + 1) acc
    else rerankPosGo rest (i + 1) (acc ++ [(k, i)])

/-- Entry point for the rerank-position map. -/
def rerankPos (docs : List (Nat × Doc)) : List (SKey × Nat) := rerankPosGo docs 0 []

/-- Position lookup with the source default of ten to the ninth. -/
def rerankPosOf (m : List (SKey × Nat)) (k : SKey) : Nat := (m.lookup k).getD (10 ^ 9)

/-- Whether any document carries a rerank score (heuristic.py
has_rerank). -/
def hasRerank (docs : List (Nat × Doc)) : Bool :=
  docs.any fun p => (p.2.md "rerank_score").isSome

/-- Sort key of the rerank branch: negated rerank score, then the rerank
position of the stable key. -/
def rrKey (m : List (SKey × Nat)) (p : Nat × Doc) : PFloat × Nat :=
  ((docRerankScore p.2).neg, rerankPosOf m (docStableKey p.1 p.2))

/-- Lexicographic comparison of rerank sort keys, as Python tuple
comparison does for sorted(). -/
def rrLe (m : List (SKey × Nat)) (a b : Nat × Doc) : Bool :=
  if (rrKey m a).1 = (rrKey m b).1 then (rrKey m a).2 ≤ (rrKey m b).2
  else pfLe (rrKey m a).1 (rrKey m b).1

/-- Transitivity of the rerank key comparison. -/
theorem rrLe_trans (m : List (SKey × Nat)) (a b c : Nat × Doc)
    (h1 : rrLe m a b = true) (h2 : rrLe m b c = true) : rrLe m a c = true := by
  unfold rrLe at *
  by_cases e1 : (rrKey m a).1 = (rrKey m b).1 <;>
    by_cases e2 : (rrKey m b).1 = (rrKey m c).1
  · rw [if_pos e1] at h1
    rw [if_pos e2] at h2
    rw [if_pos (e1.trans e2)]
    simp only [decide_eq_true_eq] at *
    exact le_trans h1 h2
  · rw [if_pos e1] at h1
    rw [if_neg e2] at h2
    rw [if_neg (fun h => e2 (e1.symm.trans h)), e1]
    exact h2
  · rw [if_neg e1] at h1
    rw [if_pos e2] at h2
    rw [if_neg (fun h => e1 (h.trans e2.symm)), ← e2]
    exact h1
  · rw [if_neg e1] at h1
    rw [if_neg e2] at h2
    by_cases e3 : (rrKey m a).1 = (rrKey m c).1
    · exact absurd (pfLe_antisymm _ _ h1 (e3 ▸ h2)) e1
    · rw [if_neg e3]
      exact pfLe_trans _ _ _ h1 h2

/-- Totality of the rerank key comparison. -/
theorem rrLe_total (m : List (SKey × Nat)) (a b : Nat × Doc) :
    (rrLe m a b || rrLe m b a) = true := by
  unfold rrLe
  by_cases e1 : (rrKey m a).1 = (rrKey m b).1
  · rw [if_pos e1, if_pos e1.symm]
    simp only [decide_eq_true_eq, Bool.or_eq_true]
    exact le_total _ _
  · rw [if_neg e1, if_neg (fun h => e1 h.symm)]
    exact pfLe_total _ _

/-- The heuristic sort in the rerank branch: Python stable sorted() by
the (-rerank_score, rerank_pos) key. -/
def heuristicSortRerank (m : List (SKey × Nat)) (kept : List (Nat × Doc)) :
    List (Nat × Doc) :=
  kept.mergeSort (rrLe m)

/-- The claim-worded key chain and the source key function agree. -/
theorem specStableKey_eq_docStableKey (oid : Nat) (d : Doc) :
    specStableKey oid d = docStableKey oid d := by
  unfold specStableKey docStableKey
  by_cases h1 : optStrTruthy d.doc_id = true
  · rw [if_pos h1, skDocId_pos h1]
    rfl
  · have h1' : optStrTruthy d.doc_id = false := by simpa using h1
    rw [if_neg (by simp [h1']), skDocId_neg h1']
    by_cases h2 : (optStrTruthy d.file_id && d.chunk_index.isSome) = true
    · rw [if_pos h2, skFilePair_pos h2]
      rfl
    · have h2' : (optStrTruthy d.file_id && d.chunk_index.isSome) = false := by
        simpa using h2
      rw [if_neg (by simp [h2']), skFilePair_neg h2']
      match hm : skMeta d with
      | some k => rfl
      | none =>
        by_cases h3 : (optStrTruthy d.title && d.chunk_index.isSome) = true
        · rw [if_pos h3, skTitlePair_pos h3]
          rfl
        · have h3' : (optStrTruthy d.title && d.chunk_index.isSome) = false := by
            simpa using h3
          rw [if_neg (by simp [h3']), skTitlePair_neg h3']
          rfl

/-- C4 (amended): the stable-key function follows the claimed chain
(doc_id; the pair (file_id, chunk_index); metadata weaviate_id, id,
uuid, or chunk_id; the pair (title, chunk_index); otherwise object
identity); it is the key used for set membership in compression (the
kept set never holds two documents with equal stable key) and for rerank
tie-breaking (the rerank-branch sort orders by the pair of negated
rerank score and the rerank position of the stable key); deduplication
across multi-query merges, however, uses the different key function
doc_key. -/
theorem stable_key_chain_and_usage :
    (∀ (oid : Nat) (d : Doc), specStableKey oid d = docStableKey oid d) ∧
    (∀ docs mustKeep filtered : List (Nat × Doc),
      (heuristicKept docs mustKeep filtered).Pairwise
        (fun a b => docStableKey a.1 a.2 ≠ docStableKey b.1 b.2)) ∧
    (∀ (m : List (SKey × Nat)) (kept : List (Nat × Doc)),
      (heuristicSortRerank m kept).Pairwise (fun a b => rrLe m a b = true)) := by
  refine ⟨specStableKey_eq_docStableKey, heuristicKept_nodup_keys, ?_⟩
  intro m kept
  exact List.sorted_mergeSort (rrLe_trans m) (rrLe_total m) kept

/-- First document of the C4 counterexample: a doc_id shared with the
second one but a distinct chunk_id. -/
def skDoc1 : Doc := { doc_id := some "D", chunk_id := some "C1" }

/-- Second document of the C4 counterexample. -/
def skDoc2 : Doc := { doc_id := some "D", chunk_id := some "C2" }

/-- C4 counterexample: two documents from different query variants share
a stable key, yet the merged retrieve output keeps both, because
multi-query deduplication uses doc_key (which reads chunk_id first), not
the stable-key function (which reads doc_id first). -/
theorem stable_key_merge_cex :
    docStableKey 0 skDoc1 = docStableKey 1 skDoc2 ∧
    (mergeDocs [[skDoc1], [skDoc2]] none).length = 2 := ⟨rfl, rfl⟩

/-!
The compress-stage two-tier wrapper.
-/

/-- Sum of page_content lengths over a document list. -/
def sumLenDocs (docs : List Doc) : Nat :=
  (docs.map fun d => d.page_content.length).sum

/-- Modelled from the spec: the two-tier compress_docs postprocessor the
compress stage awaits (returning documents, heuristic_hits and
llm_applied, with llm_compressor and use_llm arguments) is missing from
the source tree; only its caller RagPipeline.compress_docs, its test
stubs, and an older heuristic-only compress_docs with a different
signature are present.  Per spec section 4.6, given the heuristic
output, the LLM compressor runs only when use_llm holds and an adapter
is provided, the heuristic output has at least 2 documents, max_context
is positive, some heuristic document carries a rerank_score, and the sum
of heuristic page_content lengths is at least 0.7 times max_context;
otherwise the heuristic output is returned with llm_applied false.
heuristic_hits is the heuristic output count; llm_applied additionally
requires the LLM pass to have changed the documents. -/
def compressTwoTier (useLlm : Bool) (adapter : Option (List Doc → List Doc))
    (maxContext : Option Int) (heur : List Doc) : List Doc × Nat × Bool :=
  match adapter with
  | some f =>
    if useLlm && (heur.any fun d => (d.md "rerank_score").isSome) &&
        decide (2 ≤ heur.length) &&
        (match maxContext with
         | some mc => decide (0 < mc) && decide (7 * mc ≤ 10 * (sumLenDocs heur : Int))
         | none => false) then
      (f heur, heur.length, decide (f heur ≠ heur))
    else (heur, heur.length, false)
  | none => (heur, heur.length, false)

/-- Unfolding of the two-tier compressor with an adapter present. -/
theorem compressTwoTier_some (useLlm : Bool) (maxContext : Option Int)
    (heur : List Doc) (f : List Doc → List Doc) :
    compressTwoTier useLlm (some f) maxContext heur =
      if useLlm && (heur.any fun d => (d.md "rerank_score").isSome) &&
          decide (2 ≤ heur.length) &&
          (match maxContext with
           | some mc => decide (0 < mc) && decide (7 * mc ≤ 10 * (sumLenDocs heur : Int))
           | none => false) then
        (f heur, heur.length, decide (f heur ≠ heur))
      else (heur, heur.length, false) := rfl

/-- Unfolding of the two-tier compressor without an adapter. -/
theorem compressTwoTier_none (useLlm : Bool) (maxContext : Option Int)
    (heur : List Doc) :
    compressTwoTier useLlm none maxContext heur = (heur, heur.length, false) := rfl

/-! ### Join-context packing (rag_chain.py, RagPipeline.join_context) -/

/-- Python truthiness of a float (0.0 is falsy, specials are truthy). -/
def pfTruthy : PFloat → Bool
  | .fin q => q ≠ 0
  | _ => true

/-- join_context._as_float on a metadata value: float(val) when it
converts, kept only when finite (strings that parse as numerals are not
modeled; no claim under verification stores numeric strings in score
fields). -/
def joinAsFloat : Option MVal → Option PFloat
  | none => none
  | some v =>
    match v.toFloat with
    | some p => if p.finite then some p else none
    | none => none

/-- join_context._as_float on the doc-level float attribute. -/
def asFloatP : Option PFloat → Option PFloat
  | none => none
  | some p => if p.finite then some p else none

/-- Python `a or b` over optional floats: the left value when it is
present and truthy (nonzero), else the right value. -/
def pfOptOr (a b : Option PFloat) : Option PFloat :=
  match a with
  | some p => if pfTruthy p then some p else b
  | none => b

/-- join_context rerank-score resolution: metadata rerank_score when
present and convertible-finite; otherwise `_as_float(md.get("score")) or
_as_float(d.score)` with Python or-falsiness. -/
def resolveScore (d : Doc) : Option PFloat :=
  match joinAsFloat (d.md "rerank_score") with
  | some p => some p
  | none => pfOptOr (joinAsFloat (d.md "score")) (asFloatP d.score)

/-- Resolution chain as the claim words it: metadata rerank_score if
finite, else metadata score, else the doc-level score (None-based
fallback, not Python-or). -/
def resolveScoreSpec (d : Doc) : Option PFloat :=
  match joinAsFloat (d.md "rerank_score") with
  | some p => some p
  | none =>
    match joinAsFloat (d.md "score") with
    | some p => some p
    | none => asFloatP d.score

/-- A metadata value rendered as a string when truthy, none otherwise
(one step of a Python or-chain whose operand is a dict.get). -/
def mvTruthyStr : Option MVal → Option String
  | some v => if v.truthy then some v.str else none
  | none => none

/-- join_context title: d.title or metadata filename or "Untitled". -/
def citeTitle (d : Doc) : String :=
  if optStrTruthy d.title then d.title.getD ""
  else
    match mvTruthyStr (d.md "filename") with
    | some s => s
    | none => "Untitled"

/-- join_context chunk id: d.chunk_id or metadata chunk_id or metadata
id or d.doc_id (the last operand is returned raw). -/
def citeChunkId (d : Doc) : Option String :=
  if optStrTruthy d.chunk_id then d.chunk_id
  else
    match mvTruthyStr (d.md "chunk_id") with
    | some s => some s
    | none =>
      match mvTruthyStr (d.md "id") with
      | some s => some s
      | none => d.doc_id

/-- join_context page: d.page when not None, else metadata page. -/
def citePage (d : Doc) : Option Int :=
  match d.page with
  | some p => some p
  | none =>
    match d.md "page" with
    | some (.i n) => some n
    | _ => none

/-- join_context uri: d.uri or metadata uri or metadata url (the last
operand is returned raw). -/
def citeUri (d : Doc) : Option String :=
  if optStrTruthy d.uri then d.uri
  else
    match mvTruthyStr (d.md "uri") with
    | some s => some s
    | none => (d.md "url").map MVal.str

/-- join_context._snippet whitespace compaction: " ".join(text.split()). -/
def compactWs (s : String) : String :=
  String.intercalate " " (((s.toList.splitOnP pySpace).map String.mk).filter fun t => t ≠ "")

/-- join_context._snippet: compact whitespace, truncate to 240 chars with
an ellipsis. -/
def snippetOf (txt : String) : String :=
  if (compactWs txt).length ≤ 240 then compactWs txt
  else String.mk ((compactWs txt).toList.take 237) ++ "..."

/-- join_context snippet: d.snippet or metadata snippet or _snippet(txt). -/
def citeSnippet (d : Doc) : String :=
  if optStrTruthy d.snippet then d.snippet.getD ""
  else
    match mvTruthyStr (d.md "snippet") with
    | some s => s
    | none => snippetOf d.page_content

/-- join_context section: metadata section or "". -/
def sectionOf (d : Doc) : String := (mvTruthyStr (d.md "section")).getD ""

/-- One packed context entry: header line with title and optional
section, then the full page_content. -/
def entryOf (d : Doc) : String :=
  "[" ++ citeTitle d ++ "]" ++
    (if sectionOf d ≠ "" then " > " ++ sectionOf d else "") ++
    "\n" ++ d.page_content ++ "\n"

/-- Citation dict emitted per packed document. -/
structure Citation where
  id : String
  source_id : String
  title : String
  file_name : String
  uri : Option String
  chunk_id : Option String
  page : Option Int
  snippet : String
  rerank_score : Option PFloat
  score : Option PFloat
deriving DecidableEq, Repr

instance : Inhabited Citation :=
  ⟨{ id := "", source_id := "", title := "", file_name := "", uri := none,
     chunk_id := none, page := none, snippet := "", rerank_score := none,
     score := none }⟩

/-- The citation appended for a packed doc, n = len(citations) + 1. -/
def mkCitation (d : Doc) (n : Nat) : Citation :=
  { id := "S" ++ toString n
    source_id := "S" ++ toString n
    title := citeTitle d
    file_name := citeTitle d
    uri := citeUri d
    chunk_id := citeChunkId d
    page := citePage d
    snippet := citeSnippet d
    rerank_score := resolveScore d
    score := resolveScore d }

/-- The budget guard: budget is not None and total + ln > budget. -/
def joinBudgetHit (budget : Option Int) (total ln : Nat) : Bool :=
  match budget with
  | some b => decide (b < (total : Int) + (ln : Int))
  | none => false

/-- The join_context packing loop: skip a doc when it would exceed the
budget, otherwise append its entry and its citation. -/
def joinGo (budget : Option Int) : List Doc → List String → Nat → List Citation →
    List String × Nat × List Citation
  | [], buf, total, cits => (buf, total, cits)
  | d :: rest, buf, total, cits =>
    if joinBudgetHit budget total d.page_content.length then
      joinGo budget rest buf total cits
    else
      joinGo budget rest (buf ++ [entryOf d]) (total + d.page_content.length)
        (cits ++ [mkCitation d (cits.length + 1)])

/-- RagPipeline.join_context: the packed context string and the citation
list. -/
def joinContext (budget : Option Int) (docs : List Doc) : String × List Citation :=
  (String.intercalate "\n---\n" (joinGo budget docs [] 0 []).1,
   (joinGo budget docs [] 0 []).2.2)

/-- The sublist of docs the loop packs, as a projection of the loop. -/
def packedDocs (budget : Option Int) : List Doc → Nat → List Doc
  | [], _ => []
  | d :: rest, total =>
    if joinBudgetHit budget total d.page_content.length then
      packedDocs budget rest total
    else d :: packedDocs budget rest (total + d.page_content.length)

/-- Citations of a packed list, numbered from n + 1. -/
def citsFrom : List Doc → Nat → List Citation
  | [], _ => []
  | d :: rest, n => mkCitation d (n + 1) :: citsFrom rest (n + 1)

/-- The packing loop in terms of the packed-docs projection: entries are
the packed entries, the running total grows by the packed text mass, and
citations continue the numbering from the accumulator. -/
theorem joinGo_eq (budget : Option Int) (docs : List Doc) :
    ∀ buf total cits,
      joinGo budget docs buf total cits =
        (buf ++ (packedDocs budget docs total).map entryOf,
         total + sumLenDocs (packedDocs budget docs total),
         cits ++ citsFrom (packedDocs budget docs total) cits.length) := by
  induction docs with
  | nil =>
    intro buf total cits
    simp [joinGo, packedDocs, citsFrom, sumLenDocs]
  | cons d rest ih =>
    intro buf total cits
    by_cases h : joinBudgetHit budget total d.page_content.length = true
    · simp only [joinGo, packedDocs, if_pos h]
      exact ih buf total cits
    · simp only [joinGo, packedDocs, if_neg h]
      rw [ih]
      refine congrArg₂ _ ?_ (congrArg₂ _ ?_ ?_)
      · simp
      · simp [sumLenDocs]
        omega
      · simp [citsFrom, List.length_append]

/-- citsFrom length equals the packed length. -/
theorem citsFrom_length (P : List Doc) : ∀ n, (citsFrom P n).length = P.length := by
  induction P with
  | nil => intro n; rfl
  | cons d rest ih => intro n; simp [citsFrom, ih]

/-- citsFrom assigns sequential source ids. -/
theorem citsFrom_get (P : List Doc) :
    ∀ n i (h : i < (citsFrom P n).length),
      ((citsFrom P n).get ⟨i, h⟩).source_id = "S" ++ toString (n + i + 1) := by
  induction P with
  | nil => intro n i h; simp [citsFrom] at h
  | cons d rest ih =>
    intro n i h
    cases i with
    | zero => simp [citsFrom, mkCitation]
    | succ j =>
      have hj : j < (citsFrom rest (n + 1)).length := by
        simpa [citsFrom] using Nat.lt_of_succ_lt_succ h
      have := ih (n + 1) j hj
      simp only [citsFrom, List.get_cons_succ]
      rw [this]
      congr 2
      omega

/-- Every citation citsFrom produces is a mkCitation of a listed doc. -/
theorem citsFrom_mem (P : List Doc) :
    ∀ n c, c ∈ citsFrom P n → ∃ d ∈ P, ∃ k, c = mkCitation d k := by
  induction P with
  | nil => intro n c hc; simp [citsFrom] at hc
  | cons d rest ih =>
    intro n c hc
    rcases List.mem_cons.mp hc with h | h
    · exact ⟨d, List.mem_cons_self d rest, n + 1, h⟩
    · rcases ih (n + 1) c h with ⟨e, he, k, hk⟩
      exact ⟨e, List.mem_cons_of_mem d he, k, hk⟩

/-- The packed text mass never exceeds a non-negative budget. -/
theorem packedDocs_total_le (b : Int) (docs : List Doc) :
    ∀ total : Nat, (total : Int) ≤ b →
      ((total + sumLenDocs (packedDocs (some b) docs total) : Nat) : Int) ≤ b := by
  induction docs with
  | nil => intro t ht; simpa [packedDocs, sumLenDocs] using ht
  | cons d rest ih =>
    intro t ht
    by_cases h : joinBudgetHit (some b) t d.page_content.length = true
    · simpa [packedDocs, if_pos h] using ih t ht
    · have hle : ((t + d.page_content.length : Nat) : Int) ≤ b := by
        simp only [joinBudgetHit, decide_eq_true_eq] at h
        push_cast
        omega
      have := ih (t + d.page_content.length) hle
      simp only [packedDocs, if_neg h, sumLenDocs, List.map_cons, List.sum_cons]
      simp only [sumLenDocs] at this
      push_cast at this ⊢
      omega

/-- join_context._as_float only ever returns finite floats. -/
theorem joinAsFloat_finite (v : Option MVal) (p : PFloat)
    (h : joinAsFloat v = some p) : p.finite = true := by
  match v with
  | none => cases h
  | some w =>
    simp only [joinAsFloat] at h
    match hw : w.toFloat with
    | none => rw [hw] at h; cases h
    | some q =>
      rw [hw] at h
      have h' : (if q.finite = true then some q else none) = some p := h
      by_cases hf : q.finite = true
      · rw [if_pos hf] at h'; cases h'; exact hf
      · rw [if_neg hf] at h'; cases h'

/-- The doc-level _as_float only ever returns finite floats. -/
theorem asFloatP_finite (v : Option PFloat) (p : PFloat)
    (h : asFloatP v = some p) : p.finite = true := by
  match v with
  | none => cases h
  | some q =>
    have h' : (if q.finite = true then some q else none) = some p := h
    by_cases hf : q.finite = true
    · rw [if_pos hf] at h'; cases h'; exact hf
    · rw [if_neg hf] at h'; cases h'

/-- The resolved citation score is finite whenever present. -/
theorem resolveScore_finite (d : Doc) (p : PFloat)
    (h : resolveScore d = some p) : p.finite = true := by
  unfold resolveScore at h
  match h1 : joinAsFloat (d.md "rerank_score") with
  | some q =>
    rw [h1] at h; cases h
    exact joinAsFloat_finite _ _ h1
  | none =>
    rw [h1] at h
    unfold pfOptOr at h
    match h2 : joinAsFloat (d.md "score") with
    | some q =>
      rw [h2] at h
      have h' : (if pfTruthy q = true then some q else asFloatP d.score) = some p := h
      by_cases ht : pfTruthy q = true
      · rw [if_pos ht] at h'; cases h'; exact joinAsFloat_finite _ _ h2
      · rw [if_neg ht] at h'; exact asFloatP_finite _ _ h'
    | none => rw [h2] at h; exact asFloatP_finite _ _ h

/-- C5 (amended): with a non-negative non-null max_context, join-context
packs a doc only if its full page_content fits the remaining budget, so
the packed text mass is at most max_context; the citations are exactly
one per packed doc, numbered S1..Sn in packing order, and no emitted
citation carries a non-finite score.  For a negative max_context (a
plain int, never validated) the loop packs nothing while the empty sum
is 0, so the original bound fails there. -/
theorem join_context_budget_citations (docs : List Doc) (b : Int) (hb : 0 ≤ b) :
    ((sumLenDocs (packedDocs (some b) docs 0) : Nat) : Int) ≤ b ∧
    (joinContext (some b) docs).2 = citsFrom (packedDocs (some b) docs 0) 0 ∧
    (joinContext (some b) docs).2.length = (packedDocs (some b) docs 0).length ∧
    (joinContext (some b) docs).1 =
      String.intercalate "\n---\n" ((packedDocs (some b) docs 0).map entryOf) ∧
    (∀ i (h : i < (citsFrom (packedDocs (some b) docs 0) 0).length),
      ((citsFrom (packedDocs (some b) docs 0) 0).get ⟨i, h⟩).source_id =
        "S" ++ toString (i + 1)) ∧
    (∀ c ∈ (joinContext (some b) docs).2, ∀ p,
      (c.score = some p → p.finite = true) ∧
      (c.rerank_score = some p → p.finite = true)) := by
  have hg := joinGo_eq (some b) docs [] 0 []
  have hcits : (joinContext (some b) docs).2 =
      citsFrom (packedDocs (some b) docs 0) 0 := by
    simp [joinContext, hg]
  refine ⟨?_, hcits, ?_, ?_, ?_, ?_⟩
  · have := packedDocs_total_le b docs 0 (by exact_mod_cast hb)
    simpa using this
  · rw [hcits, citsFrom_length]
  · simp [joinContext, hg]
  · intro i h
    have := citsFrom_get (packedDocs (some b) docs 0) 0 i h
    simpa using this
  · intro c hc p
    rw [hcits] at hc
    obtain ⟨d, hd, k, rfl⟩ := citsFrom_mem _ _ _ hc
    exact ⟨fun h => resolveScore_finite d p h, fun h => resolveScore_finite d p h⟩

/-- C5 counterexample: max_context is a plain int with no positivity
validation, and with a negative budget the packing loop skips every
doc — nothing is packed, no citation is emitted, and the packed text
mass 0 does not satisfy the claimed bound sum ≤ max_context. -/
theorem join_context_negative_budget_cex :
    (joinContext (some (-1)) [{ page_content := "abcd" }]).2 = [] ∧
    packedDocs (some (-1)) [{ page_content := "abcd" }] 0 = [] ∧
    ¬ ((sumLenDocs (packedDocs (some (-1)) [{ page_content := "abcd" }] 0) : Int) ≤ -1) :=
  ⟨rfl, rfl, by decide⟩

/-- Spec acceptance doc c1 = "abcd". -/
def jdoc1 : Doc := { chunk_id := some "c1", title := some "Doc1", page_content := "abcd" }

/-- Spec acceptance doc c2 = "efgh". -/
def jdoc2 : Doc := { chunk_id := some "c2", title := some "Doc2", page_content := "efgh" }

/-- C5 witness: budget 4 over the spec acceptance docs packs text mass
at most 4 with one citation per packed doc. -/
theorem join_context_budget_citations_witness :
    (0 : Int) ≤ 4 ∧
    ((sumLenDocs (packedDocs (some 4) [jdoc1, jdoc2] 0) : Nat) : Int) ≤ 4 ∧
    (joinContext (some 4) [jdoc1, jdoc2]).2.length =
      (packedDocs (some 4) [jdoc1, jdoc2] 0).length :=
  ⟨by decide, (join_context_budget_citations [jdoc1, jdoc2] 4 (by decide)).1,
   (join_context_budget_citations [jdoc1, jdoc2] 4 (by decide)).2.2.1⟩

/-- Doc whose metadata score is the falsy 0.0 while the doc-level score
is 2.0: the Python or-chain skips the metadata score. -/
def c10doc : Doc := { score := some (.fin 2), metadata := [("score", .f (.fin 0))] }

/-- C10 counterexample: the claimed resolution chain (metadata
rerank_score, else metadata score, else doc-level score) would emit 0.0
here, but the code's Python-or treats the finite metadata score 0.0 as
falsy and emits the doc-level 2.0 instead. -/
theorem citation_score_or_cex :
    resolveScore c10doc = some (.fin 2) ∧
    resolveScoreSpec c10doc = some (.fin 0) ∧
    resolveScore c10doc ≠ resolveScoreSpec c10doc ∧
    (joinContext none [c10doc]).2.map Citation.score = [some (.fin 2)] := by
  refine ⟨by decide, by decide, by decide, by decide⟩

/-- C10 (amended): every citation join-context emits holds the same
value in score and rerank_score, resolved as: metadata rerank_score when
present and finite; otherwise metadata score when finite and nonzero;
otherwise the doc-level score when finite (a finite metadata score of
0.0 is falsy in the Python or-chain and is overridden by the doc-level
score). -/
theorem citation_score_resolution (docs : List Doc) (bud : Option Int) :
    (∀ c ∈ (joinContext bud docs).2, c.score = c.rerank_score) ∧
    (∀ d n, (mkCitation d n).score = resolveScore d ∧
            (mkCitation d n).rerank_score = resolveScore d) ∧
    (∀ d p, joinAsFloat (d.md "rerank_score") = some p → resolveScore d = some p) ∧
    (∀ d q, joinAsFloat (d.md "rerank_score") = none →
        joinAsFloat (d.md "score") = some (.fin q) → q ≠ 0 →
        resolveScore d = some (.fin q)) ∧
    (∀ d, joinAsFloat (d.md "rerank_score") = none →
        (joinAsFloat (d.md "score") = none ∨
          joinAsFloat (d.md "score") = some (.fin 0)) →
        resolveScore d = asFloatP d.score) := by
  refine ⟨?_, fun d n => ⟨rfl, rfl⟩, ?_, ?_, ?_⟩
  · intro c hc
    have hg := joinGo_eq bud docs [] 0 []
    have hcits : (joinContext bud docs).2 =
        citsFrom (packedDocs bud docs 0) 0 := by
      simp [joinContext, hg]
    rw [hcits] at hc
    obtain ⟨d, hd, k, rfl⟩ := citsFrom_mem _ _ _ hc
    rfl
  · intro d p h
    simp [resolveScore, h]
  · intro d q h1 h2 hq
    simp [resolveScore, h1, pfOptOr, h2, pfTruthy, hq]
  · intro d h1 h2
    rcases h2 with h2 | h2
    · simp [resolveScore, h1, pfOptOr, h2]
    · simp [resolveScore, h1, pfOptOr, h2, pfTruthy]

/-- Doc carrying a finite metadata rerank_score for the C10 witness. -/
def c10wdoc : Doc := { metadata := [("rerank_score", .f (.fin 1))] }

/-- C10 witness: the emitted citation of a doc with rerank_score 1.0 has
equal score and rerank_score fields. -/
theorem citation_score_resolution_witness :
    mkCitation c10wdoc 1 ∈ (joinContext none [c10wdoc]).2 ∧
    (mkCitation c10wdoc 1).score = (mkCitation c10wdoc 1).rerank_score :=
  ⟨by decide,
   (citation_score_resolution [c10wdoc] none).1 (mkCitation c10wdoc 1) (by decide)⟩

/-! ### Retrieval error handling (weaviate_near_text.py, rag_chain.py) -/

/-- Result of one retriever call (weaviate_near_text.py RetrieveResult:
docs, echoed query and top_k; filters not modeled). -/
structure RetrieveResult where
  docs : List Doc
  query : String
  top_k : Nat
deriving DecidableEq, Repr

/-- WeaviateNearTextRetriever._invoke_single: the near_text call either
returns items (already converted to docs) or raises; the surrounding
try/except catches every exception and returns a successful
RetrieveResult with empty docs. -/
def invokeSingle (backend : String → Except Unit (List Doc)) (query : String)
    (k : Nat) : RetrieveResult :=
  match backend query with
  | .ok items => { docs := items, query := query, top_k := k }
  | .error _ => { docs := [], query := query, top_k := k }

/-- Modelled from the spec: the operator the spec describes fails with
BackendUnavailable on a transport error instead of catching it; no
BackendUnavailable class exists anywhere in the source tree. -/
def invokeSingleSpec (backend : String → Except Unit (List Doc)) (query : String)
    (k : Nat) : Except Unit RetrieveResult :=
  match backend query with
  | .ok items => .ok { docs := items, query := query, top_k := k }
  | .error e => .error e

/-- stage_retrieve._run_query fallback loop over the text-key
candidates: skip empty keys and the current key, return the first
working key's docs together with that key (self.text_key is set to it),
re-raise when every candidate fails. -/
def runQueryGo (inv : String → String → Except Unit (List Doc))
    (textKey query : String) : List String → Except Unit (List Doc × String)
  | [] => .error ()
  | tk :: rest =>
    if tk = "" ∨ tk = textKey then runQueryGo inv textKey query rest
    else
      match inv tk query with
      | .ok docs => .ok (docs, tk)
      | .error _ => runQueryGo inv textKey query rest

/-- stage_retrieve._run_query: invoke with the configured text key; on a
KeyError walk the candidate list [self.text_key, "text", "page_content",
"body", "chunk"].  The returned string is the text key remembered in
self.text_key for subsequent calls. -/
def runQuery (inv : String → String → Except Unit (List Doc))
    (textKey query : String) : Except Unit (List Doc × String) :=
  match inv textKey query with
  | .ok docs => .ok (docs, textKey)
  | .error _ =>
    runQueryGo inv textKey query [textKey, "text", "page_content", "body", "chunk"]

/-- C9 counterexample: on a transport error the operator does not fail;
_invoke_single catches the exception and returns a successful
RetrieveResult with empty docs, while the spec-described operator would
surface the error. -/
theorem retrieve_transport_swallow_cex :
    (invokeSingle (fun _ => .error ()) "q" 5).docs = [] ∧
    invokeSingleSpec (fun _ => .error ()) "q" 5 = .error () :=
  ⟨rfl, rfl⟩

/-- C9 (amended): a transport error in _invoke_single is converted into
a successful empty RetrieveResult (no BackendUnavailable surfaces),
while a successful call passes its docs through; _run_query returns the
configured text key's docs when it works, and on a KeyError walks the
candidate list, skipping empty keys and the current key, returning the
first working candidate's docs while remembering that candidate, and
re-raising when every candidate fails. -/
theorem retrieve_error_handling
    (backend : String → Except Unit (List Doc))
    (inv : String → String → Except Unit (List Doc)) (q tk : String) (k : Nat) :
    (∀ e, backend q = .error e →
      invokeSingle backend q k = { docs := [], query := q, top_k := k }) ∧
    (∀ docs, backend q = .ok docs →
      invokeSingle backend q k = { docs := docs, query := q, top_k := k }) ∧
    (∀ docs, inv tk q = .ok docs → runQuery inv tk q = .ok (docs, tk)) ∧
    (∀ e, inv tk q = .error e →
      runQuery inv tk q =
        runQueryGo inv tk q [tk, "text", "page_content", "body", "chunk"]) ∧
    runQueryGo inv tk q [] = .error () ∧
    (∀ t rest, (t = "" ∨ t = tk) →
      runQueryGo inv tk q (t :: rest) = runQueryGo inv tk q rest) ∧
    (∀ t rest docs, ¬(t = "" ∨ t = tk) → inv t q = .ok docs →
      runQueryGo inv tk q (t :: rest) = .ok (docs, t)) ∧
    (∀ t rest e, ¬(t = "" ∨ t = tk) → inv t q = .error e →
      runQueryGo inv tk q (t :: rest) = runQueryGo inv tk q rest) := by
  refine ⟨?_, ?_, ?_, ?_, rfl, ?_, ?_, ?_⟩
  · intro e he
    unfold invokeSingle
    rw [he]
  · intro docs h
    unfold invokeSingle
    rw [h]
  · intro docs h
    unfold runQuery
    rw [h]
  · intro e h
    unfold runQuery
    rw [h]
  · intro t rest ht
    show (if t = "" ∨ t = tk then runQueryGo inv tk q rest
          else match inv t q with
            | .ok docs => .ok (docs, t)
            | .error _ => runQueryGo inv tk q rest) = runQueryGo inv tk q rest
    rw [if_pos ht]
  · intro t rest docs ht hok
    show (if t = "" ∨ t = tk then runQueryGo inv tk q rest
          else match inv t q with
            | .ok docs => .ok (docs, t)
            | .error _ => runQueryGo inv tk q rest) = .ok (docs, t)
    rw [if_neg ht, hok]
  · intro t rest e ht herr
    show (if t = "" ∨ t = tk then runQueryGo inv tk q rest
          else match inv t q with
            | .ok docs => .ok (docs, t)
            | .error _ => runQueryGo inv tk q rest) = runQueryGo inv tk q rest
    rw [if_neg ht, herr]

/-- C9 witness: an always-failing backend yields the successful empty
result. -/
theorem retrieve_error_handling_witness :
    (fun _ : String => (.error () : Except Unit (List Doc))) "q" = .error () ∧
    invokeSingle (fun _ => .error ()) "q" 5 = { docs := [], query := "q", top_k := 5 } :=
  ⟨rfl,
   (retrieve_error_handling (fun _ => .error ()) (fun _ _ => .error ())
     "q" "content" 5).1 () rfl⟩

/-! ### MMR selection (postprocessors/mmr.py)

Float values inside the selector are modeled as exact rationals; the
floating square root in _safe_cosine is an abstract parameter sqrt,
constrained where a claim needs it (the claims under verification fix
either the zero-vector guard branch, which never calls it, or identical
vectors, where only the exactness of sqrt on the squared norm matters).
Python set iteration over candidate indices is modeled in ascending
order; no claim under verification depends on tie order.  The debug
metadata attachment (mmr_rank, mmr_lambda) is not modeled; the claim
under verification concerns only the selection count. -/

/-- Dot product over zipped vectors (the accumulation loop of
_safe_cosine). -/
def dotQ (a b : List ℚ) : ℚ :=
  (a.zip b).foldl (fun acc p => acc + p.1 * p.2) 0

/-- _safe_cosine: 0.0 when either squared norm is non-positive, else
dot / (sqrt(na) * sqrt(nb)). -/
def safeCosine (sqrt : ℚ → ℚ) (a b : List ℚ) : ℚ :=
  if dotQ a a ≤ 0 ∨ dotQ b b ≤ 0 then 0
  else dotQ a b / (sqrt (dotQ a a) * sqrt (dotQ b b))

/-- _get_embedding raw chain: metadata embedding, else metadata vector,
else the doc-level embedding attribute. -/
def getEmbeddingRaw (d : Doc) : Option MVal :=
  match d.md "embedding" with
  | some v => some v
  | none =>
    match d.md "vector" with
    | some v => some v
    | none => d.embedding.map MVal.vec

/-- _get_embedding as a vector: a present non-vector value would raise
inside zip and is treated as absent; no claim under verification stores
a non-vector under an embedding key. -/
def getEmbedding (d : Doc) : Option (List ℚ) :=
  match getEmbeddingRaw d with
  | some (.vec v) => some v
  | _ => none

/-- The default _sim closure over the candidate embedding cache: 0.0
when either embedding is missing, else _safe_cosine. -/
def simEmb (sqrt : ℚ → ℚ) (cands : List Doc) (i j : Nat) : ℚ :=
  match (cands[i]?).bind getEmbedding, (cands[j]?).bind getEmbedding with
  | some a, some b => safeCosine sqrt a b
  | _, _ => 0

/-- max_sim: the running maximum over selected indices, starting 0.0. -/
def maxSimQ (sim : Nat → Nat → ℚ) (selected : List Nat) (i : Nat) : ℚ :=
  selected.foldl (fun m s => max m (sim i s)) 0

/-- The similarity-threshold prune: threshold set and max_sim ≥ it. -/
def thrHit (thr : Option ℚ) (ms : ℚ) : Bool :=
  match thr with
  | some t => decide (t ≤ ms)
  | none => false

/-- One pass over the remaining candidates: skip pruned ones, keep the
best (index, score) under strict improvement, score = lambda * rel -
(1 - lambda) * max_sim. -/
def mmrScan (sim : Nat → Nat → ℚ) (rel : Nat → ℚ) (lam : ℚ) (thr : Option ℚ)
    (selected : List Nat) : List Nat → Option (Nat × ℚ) → Option (Nat × ℚ)
  | [], best => best
  | i :: rest, best =>
    if thrHit thr (maxSimQ sim selected i) then
      mmrScan sim rel lam thr selected rest best
    else
      match best with
      | none =>
        mmrScan sim rel lam thr selected rest
          (some (i, lam * rel i - (1 - lam) * maxSimQ sim selected i))
      | some b =>
        if b.2 < lam * rel i - (1 - lam) * maxSimQ sim selected i then
          mmrScan sim rel lam thr selected rest
            (some (i, lam * rel i - (1 - lam) * maxSimQ sim selected i))
        else mmrScan sim rel lam thr selected rest (some b)

/-- The while loop: stop when remaining is empty, k is reached, or the
scan found no candidate; else append the best and drop it from
remaining.  Fuel is the initial remaining size, one removal per
iteration. -/
def mmrLoop (sim : Nat → Nat → ℚ) (rel : Nat → ℚ) (lam : ℚ) (thr : Option ℚ)
    (k : Nat) : Nat → List Nat → List Nat → List Nat
  | 0, selected, _ => selected
  | fuel + 1, selected, remaining =>
    if remaining.isEmpty ∨ k ≤ selected.length then selected
    else
      match mmrScan sim rel lam thr selected remaining none with
      | none => selected
      | some b =>
        mmrLoop sim rel lam thr k fuel (selected ++ [b.1]) (remaining.erase b.1)

/-- Python max with key: keep the first index whose key is maximal. -/
def argmaxGo (rel : Nat → ℚ) : List Nat → Nat → Nat
  | [], best => best
  | i :: rest, best => argmaxGo rel rest (if rel best < rel i then i else best)

/-- The first pick: most relevant candidate index. -/
def argmaxRel (rel : Nat → ℚ) : List Nat → Nat
  | [] => 0
  | i :: rest => argmaxGo rel rest i

/-- mmr_select with the default embedding-based similarity; rel models
the precomputed relevance scores (total over candidate indices, as
_compute_default_rel_scores guarantees via setdefault). -/
def mmrSelect (sqrt : ℚ → ℚ) (rel : Nat → ℚ) (lam : ℚ) (thr : Option ℚ)
    (k fetchK : Int) (docs : List Doc) : List Doc :=
  if docs.isEmpty then []
  else if (max 0 k).toNat = 0 then []
  else
    (mmrLoop (simEmb sqrt (docs.take (max (max 0 k) fetchK).toNat)) rel lam thr
        (max 0 k).toNat ((docs.take (max (max 0 k) fetchK).toNat).length - 1)
        [argmaxRel rel (List.range (docs.take (max (max 0 k) fetchK).toNat).length)]
        ((List.range (docs.take (max (max 0 k) fetchK).toNat).length).erase
          (argmaxRel rel
            (List.range (docs.take (max (max 0 k) fetchK).toNat).length)))).map
      fun i => (docs.take (max (max 0 k) fetchK).toNat).getD i default

/-- A scan in which every candidate is pruned returns its accumulator. -/
theorem mmrScan_all_skip (sim : Nat → Nat → ℚ) (rel : Nat → ℚ) (lam : ℚ)
    (thr : Option ℚ) (selected : List Nat) (l : List Nat)
    (best : Option (Nat × ℚ))
    (h : ∀ i ∈ l, thrHit thr (maxSimQ sim selected i) = true) :
    mmrScan sim rel lam thr selected l best = best := by
  induction l generalizing best with
  | nil => rfl
  | cons i rest ih =>
    show (if thrHit thr (maxSimQ sim selected i) then
        mmrScan sim rel lam thr selected rest best
      else
        match best with
        | none =>
          mmrScan sim rel lam thr selected rest
            (some (i, lam * rel i - (1 - lam) * maxSimQ sim selected i))
        | some b =>
          if b.2 < lam * rel i - (1 - lam) * maxSimQ sim selected i then
            mmrScan sim rel lam thr selected rest
              (some (i, lam * rel i - (1 - lam) * maxSimQ sim selected i))
          else mmrScan sim rel lam thr selected rest (some b)) = best
    rw [if_pos (h i (List.mem_cons_self i rest))]
    exact ih best (fun j hj => h j (List.mem_cons_of_mem i hj))

/-- A loop whose remaining candidates are all pruned keeps its selected
list. -/
theorem mmrLoop_all_skip (sim : Nat → Nat → ℚ) (rel : Nat → ℚ) (lam : ℚ)
    (thr : Option ℚ) (kN : Nat) (fuel : Nat) (selected remaining : List Nat)
    (h : ∀ i ∈ remaining, thrHit thr (maxSimQ sim selected i) = true) :
    mmrLoop sim rel lam thr kN fuel selected remaining = selected := by
  cases fuel with
  | zero => rfl
  | succ m =>
    show (if remaining.isEmpty ∨ kN ≤ selected.length then selected
      else
        match mmrScan sim rel lam thr selected remaining none with
        | none => selected
        | some b =>
          mmrLoop sim rel lam thr kN m (selected ++ [b.1])
            (remaining.erase b.1)) = selected
    by_cases hc : remaining.isEmpty = true ∨ kN ≤ selected.length
    · rw [if_pos hc]
    · rw [if_neg hc, mmrScan_all_skip sim rel lam thr selected remaining none h]

/-- argmaxGo picks an element of the accumulator-or-list. -/
theorem argmaxGo_mem (rel : Nat → ℚ) (l : List Nat) :
    ∀ best, argmaxGo rel l best ∈ best :: l := by
  induction l with
  | nil => intro best; simp [argmaxGo]
  | cons i rest ih =>
    intro best
    show argmaxGo rel rest (if rel best < rel i then i else best) ∈ best :: i :: rest
    by_cases hb : rel best < rel i
    · rw [if_pos hb]
      exact List.mem_cons_of_mem best (ih i)
    · rw [if_neg hb]
      rcases List.mem_cons.mp (ih best) with h | h
      · exact List.mem_cons.mpr (Or.inl h)
      · exact List.mem_cons.mpr (Or.inr (List.mem_cons_of_mem i h))

/-- The first pick is one of the candidates. -/
theorem argmaxRel_mem (rel : Nat → ℚ) (l : List Nat) (hl : l ≠ []) :
    argmaxRel rel l ∈ l := by
  match l with
  | [] => exact absurd rfl hl
  | i :: rest =>
    show argmaxGo rel rest i ∈ i :: rest
    exact argmaxGo_mem rel rest i

/-- Doc carrying the zero embedding vector. -/
def m6z : Doc := { metadata := [("embedding", .vec [0])] }

/-- C6 counterexample: two candidates with identical zero embedding
vectors and threshold 0.99 yield 2 items, not 1: _safe_cosine returns
0.0 on zero vectors, so the threshold prune never fires. -/
theorem mmr_identical_zero_cex :
    getEmbedding m6z = some [0] ∧
    (mmrSelect id (fun _ => 0) (7/10) (some (99/100)) 6 24 [m6z, m6z]).length = 2 :=
  ⟨by decide, by with_unfolding_all decide⟩

/-- C6 (amended): when every doc carries one identical embedding vector
of positive squared norm and sqrt is exact on that squared norm, MMR
selection with threshold 0.99 returns exactly one item for every k ≥ 1;
on identical zero vectors the claim fails, because the _safe_cosine
guard reports similarity 0. -/
theorem mmr_identical_vectors_one (docs : List Doc) (v : List ℚ) (sqrt : ℚ → ℚ)
    (rel : Nat → ℚ) (lam : ℚ) (k fetchK : Int)
    (hne : docs ≠ []) (hk : 1 ≤ k) (hv : 0 < dotQ v v)
    (hsqrt : sqrt (dotQ v v) * sqrt (dotQ v v) = dotQ v v)
    (hemb : ∀ d ∈ docs, getEmbedding d = some v) :
    (mmrSelect sqrt rel lam (some (99/100)) k fetchK docs).length = 1 := by
  have hne' : docs.isEmpty = false := by
    cases docs with
    | nil => exact absurd rfl hne
    | cons a l => rfl
  have hk1 : (1 : Int) ≤ max 0 k := le_trans hk (le_max_right 0 k)
  have hk0 : ¬((max 0 k).toNat = 0) := by
    intro h0
    rw [Int.toNat_eq_zero] at h0
    omega
  unfold mmrSelect
  rw [if_neg (by simp [hne']), if_neg hk0]
  set fk := (max (max 0 k) fetchK).toNat with hfk
  set cands := docs.take fk with hcands
  set n := cands.length with hn
  set first := argmaxRel rel (List.range n) with hfirst
  have hfk1 : 1 ≤ fk := by
    rw [hfk]
    have h1 : (1 : Int) ≤ max (max 0 k) fetchK := le_trans hk1 (le_max_left _ _)
    omega
  have hd1 : 1 ≤ docs.length := List.length_pos.mpr hne
  have hn1 : 1 ≤ n := by
    rw [hn, hcands, List.length_take]
    omega
  have hfirstlt : first < n := by
    have hmem := argmaxRel_mem rel (List.range n)
      (by simpa [List.range_eq_nil] using (by omega : n ≠ 0))
    simpa [List.mem_range] using hmem
  have hsim : ∀ i, i < n → simEmb sqrt cands i first = 1 := by
    intro i hi
    have hi' : i < cands.length := by rw [← hn]; exact hi
    have hf' : first < cands.length := by rw [← hn]; exact hfirstlt
    have hei : getEmbedding cands[i] = some v :=
      hemb _ (List.take_subset fk docs (List.getElem_mem _))
    have hef : getEmbedding cands[first] = some v :=
      hemb _ (List.take_subset fk docs (List.getElem_mem _))
    have hbi : (cands[i]?).bind getEmbedding = some v := by
      rw [List.getElem?_eq_getElem hi']
      exact hei
    have hbf : (cands[first]?).bind getEmbedding = some v := by
      rw [List.getElem?_eq_getElem hf']
      exact hef
    show ((match (cands[i]?).bind getEmbedding, (cands[first]?).bind getEmbedding with
      | some a, some b => safeCosine sqrt a b
      | _, _ => 0 : ℚ)) = 1
    rw [hbi, hbf]
    show safeCosine sqrt v v = 1
    unfold safeCosine
    rw [if_neg (by push_neg; exact ⟨hv, hv⟩), hsqrt, div_self (ne_of_gt hv)]
  have hthr : ∀ i ∈ (List.range n).erase first,
      thrHit (some (99/100)) (maxSimQ (simEmb sqrt cands) [first] i) = true := by
    intro i hi
    have hi' : i < n := by
      have hmem := List.mem_of_mem_erase hi
      simpa [List.mem_range] using hmem
    have hms : maxSimQ (simEmb sqrt cands) [first] i = 1 := by
      show max 0 (simEmb sqrt cands i first) = 1
      rw [hsim i hi']
      exact max_eq_right (by norm_num)
    rw [hms]
    show decide ((99/100 : ℚ) ≤ 1) = true
    exact decide_eq_true (by norm_num)
  rw [mmrLoop_all_skip (simEmb sqrt cands) rel lam (some (99/100)) (max 0 k).toNat
    (n - 1) [first] ((List.range n).erase first) hthr]
  simp

/-- Doc carrying the unit embedding vector. -/
def m6w : Doc := { metadata := [("embedding", .vec [1])] }

/-- C6 witness: two candidates with identical unit embedding vectors
and threshold 0.99 yield exactly one item. -/
theorem mmr_identical_one_witness :
    (0 : ℚ) < dotQ [1] [1] ∧
    (mmrSelect id (fun _ => 0) (7/10) (some (99/100)) 6 24 [m6w, m6w]).length = 1 :=
  ⟨by with_unfolding_all decide,
   mmr_identical_vectors_one [m6w, m6w] [1] id (fun _ => 0) (7/10) 6 24
     (by decide) (by decide) (by with_unfolding_all decide)
     (by with_unfolding_all decide) (by decide)⟩

/-! ### LLM reranker (postprocessors/reranker.py)

The JSON grammar of json.loads is not re-implemented: parsing is
parameterized by a decode function String → Option JVal (None models a
raised json error), while everything downstream of decoding — the
strict-then-extract order, the bracket extraction regex, entry
filtering, float conversion, clamping, batching, id preparation,
metadata attachment, the missing-id path, sorting, dedup and the top_n
cut — is modeled concretely.  The prompt text is not modeled: the raw
LLM response per batch is a parameter Nat → Except Unit String (error
models _call_llm raising).  Python set iteration for missing ids is
modeled in item order and sort order on nan keys follows pfLe; no claim
under verification depends on either order. -/

/-- Parsed JSON values (numbers are finite). -/
inductive JVal where
  | s (v : String)
  | num (q : ℚ)
  | b (v : Bool)
  | null
  | arr (xs : List JVal)
  | obj (kvs : List (String × JVal))

/-- dict.get on a parsed JSON object: missing key and JSON null both
give Python None. -/
def jget (kvs : List (String × JVal)) (k : String) : Option JVal :=
  match kvs.lookup k with
  | some .null => none
  | v => v

/-- Python str() of a parsed JSON value (witness inputs only use
strings, where the rendering is exact). -/
def jstr : JVal → String
  | .s v => v
  | .num q => toString q
  | .b x => if x then "True" else "False"
  | .null => "None"
  | .arr _ => "<arr>"
  | .obj _ => "<obj>"

/-- Python float() of a parsed JSON value: numbers and bools convert,
everything else raises (numeric strings are not modeled; no claim under
verification sends string scores). -/
def jfloat : JVal → Option PFloat
  | .num q => some (.fin q)
  | .b x => some (.fin (if x then 1 else 0))
  | _ => none

/-- IEEE less-than on Python floats: any comparison with nan is false. -/
def pfLt (a b : PFloat) : Bool :=
  match a, b with
  | .nan, _ => false
  | _, .nan => false
  | .ninf, .ninf => false
  | .ninf, _ => true
  | _, .ninf => false
  | .inf, _ => false
  | .fin _, .inf => true
  | .fin p, .fin q => decide (p < q)

/-- Python min(a, b): b when b < a, else a. -/
def pyMinF (a b : PFloat) : PFloat := if pfLt b a then b else a

/-- Python max(a, b): b when a < b, else a. -/
def pyMaxF (a b : PFloat) : PFloat := if pfLt a b then b else a

/-- The score clamp max(0.0, min(1.0, f)). -/
def pfClamp01 (p : PFloat) : PFloat := pyMaxF (.fin 0) (pyMinF (.fin 1) p)

/-- One entry of the parsed reranker response: skip non-objects and
entries without id or score, drop entries whose score does not convert,
clamp the score, stringify id and optional reason. -/
def processObj (o : JVal) : Option (String × PFloat × Option String) :=
  match o with
  | .obj kvs =>
    match jget kvs "id", jget kvs "score" with
    | some rid, some score =>
      match jfloat score with
      | some f => some (jstr rid, pfClamp01 f, (jget kvs "reason").map jstr)
      | none => none
    | _, _ => none
  | _ => none

/-- The parsed response must be a JSON array; its entries are filtered
through processObj. -/
def processData (data : JVal) : Except Unit (List (String × PFloat × Option String)) :=
  match data with
  | .arr xs => .ok (xs.filterMap processObj)
  | _ => .error ()

/-- Python str.strip(). -/
def pyStrip (s : String) : String := String.mk (stripWs s.toList)

/-- Index of the first open bracket. -/
def firstLB (s : List Char) : Option Nat := s.findIdx? (fun c => c = '[')

/-- Index of the last close bracket. -/
def lastRB (s : List Char) : Option Nat :=
  match s.reverse.findIdx? (fun c => c = ']') with
  | some r => some (s.length - 1 - r)
  | none => none

/-- The greedy regex search for a bracketed array substring: it matches
from the first open bracket to the last close bracket of the whole text
(when that close bracket lies after the open one). -/
def extractArr (s : List Char) : Option (List Char) :=
  match firstLB s, lastRB s with
  | some i, some j => if i < j then some ((s.drop i).take (j - i + 1)) else none
  | _, _ => none

/-- _parse_llm_json: strict parse of the stripped text first, else parse
the extracted bracketed substring; a missing extraction or a second
failure raises; a non-array parse raises inside processData. -/
def parseLLMJson (decode : String → Option JVal) (raw : String) :
    Except Unit (List (String × PFloat × Option String)) :=
  match decode (pyStrip raw) with
  | some data => processData data
  | none =>
    match extractArr (pyStrip raw).toList with
    | some sub =>
      match decode (String.mk sub) with
      | some data => processData data
      | none => .error ()
    | none => .error ()

/-- Reranker runtime knobs (temperature and token caps only shape the
prompt and are not modeled). -/
structure RerankCfg where
  max_candidates : Int := 30
  top_n : Int := 8
  batch_size : Int := 12
  max_doc_chars : Int := 1800
  fail_open : Bool := true
deriving DecidableEq, Repr

/-- Python list slice l[:n] including negative n (count from the end). -/
def pySliceTo (n : Int) (l : List Doc) : List Doc :=
  if 0 ≤ n then l.take n.toNat else l.take (l.length - (-n).toNat)

/-- The candidate cap list(docs)[:max(max_candidates, 0) or 0] or
list(docs): an empty slice falls back to the whole list. -/
def capCands (mc : Int) (docs : List Doc) : List Doc :=
  if (docs.take (max mc 0).toNat).isEmpty then docs else docs.take (max mc 0).toNat

/-- _batched chunks with fuel (each step drops at least one element). -/
def batchedGo (n : Nat) : Nat → List Nat → List (List Nat)
  | 0, _ => []
  | _, [] => []
  | fuel + 1, l => l.take n :: batchedGo n fuel (l.drop n)

/-- _batched over candidate indices, chunk size max(batch_size, 1). -/
def batched (bs : Int) (l : List Nat) : List (List Nat) :=
  batchedGo (max bs 1).toNat l.length l

/-- _doc_id: first truthy metadata value among chunk_id, id, doc_id,
source_id rendered as a string, else the positional fallback. -/
def rrDocId (d : Doc) (fallback : String) : String :=
  match mvTruthyStr (d.md "chunk_id") with
  | some s => s
  | none =>
    match mvTruthyStr (d.md "id") with
    | some s => s
    | none =>
      match mvTruthyStr (d.md "doc_id") with
      | some s => s
      | none =>
        match mvTruthyStr (d.md "source_id") with
        | some s => s
        | none => fallback

/-- The id#suffix probe loop of _prepare_items, with fuel. -/
def freshIdGo (used : List String) (rid : String) : Nat → Nat → String
  | 0, s => rid ++ "#" ++ toString s
  | fuel + 1, s =>
    if (rid ++ "#" ++ toString s) ∈ used then freshIdGo used rid fuel (s + 1)
    else rid ++ "#" ++ toString s

/-- A batch-unique id: the raw id when unused, else the first unused
id#suffix (fuel |used| + 1 suffices: the probes are pairwise distinct). -/
def freshId (used : List String) (rid : String) : String :=
  if rid ∈ used then freshIdGo used rid (used.length + 1) 1 else rid

/-- _prepare_items ids, in batch order, with the used-id set threaded. -/
def prepareIdsGo : List Doc → Nat → List String → List String
  | [], _, _ => []
  | d :: rest, i, used =>
    freshId used (rrDocId d (toString i)) ::
      prepareIdsGo rest (i + 1) (freshId used (rrDocId d (toString i)) :: used)

/-- The stable ids of one batch. -/
def prepareIds (batch : List Doc) : List String := prepareIdsGo batch 0 []

/-- In-place update of the doc at one candidate index. -/
def modifyAt (l : List Doc) (i : Nat) (f : Doc → Doc) : List Doc :=
  l.take i ++ (match l.drop i with
    | [] => []
    | d :: rest => f d :: rest)

/-- One scored response entry: look the id up in the batch items (skip
unknown ids), write the clamped score and the optional reason into the
doc's metadata, append (index, score) to scored. -/
def applyResStep (items : List (String × Nat))
    (st : List Doc × List (Nat × PFloat)) (r : String × PFloat × Option String) :
    List Doc × List (Nat × PFloat) :=
  match items.lookup r.1 with
  | none => st
  | some idx =>
    (modifyAt st.1 idx (fun d =>
      match r.2.2 with
      | some rs =>
        { d with metadata :=
            (d.metadata.set "rerank_score" (.f r.2.1)).set "rerank_reason" (.s rs) }
      | none => { d with metadata := d.metadata.set "rerank_score" (.f r.2.1) }),
     st.2 ++ [(idx, r.2.1)])

/-- All scored response entries of one batch. -/
def applyResults (items : List (String × Nat))
    (results : List (String × PFloat × Option String))
    (st : List Doc × List (Nat × PFloat)) : List Doc × List (Nat × PFloat) :=
  results.foldl (applyResStep items) st

/-- One missing batch item: setdefault rerank_score to -inf (a
pre-existing value is kept), then append (index, float(md value)) to
scored; a non-convertible pre-existing value raises. -/
def applyMissingStep (resultIds : List String)
    (st : Except Unit (List Doc × List (Nat × PFloat))) (it : String × Nat) :
    Except Unit (List Doc × List (Nat × PFloat)) :=
  match st with
  | .error e => .error e
  | .ok (cands, scored) =>
    if it.1 ∈ resultIds then .ok (cands, scored)
    else
      match (((modifyAt cands it.2 (fun d =>
          { d with metadata := d.metadata.setdefault "rerank_score" (.f .ninf) })).getD
            it.2 default).md "rerank_score").bind MVal.toFloat with
      | none => .error ()
      | some v =>
        .ok (modifyAt cands it.2 (fun d =>
          { d with metadata := d.metadata.setdefault "rerank_score" (.f .ninf) }),
         scored ++ [(it.2, v)])

/-- The missing-id pass of one batch. -/
def applyMissing (items : List (String × Nat)) (resultIds : List String)
    (st : List Doc × List (Nat × PFloat)) :
    Except Unit (List Doc × List (Nat × PFloat)) :=
  items.foldl (applyMissingStep resultIds) (.ok st)

/-- One batch: a raised LLM call or parse failure aborts, else the
scored entries are applied and the missing ids handled. -/
def processBatch (decode : String → Option JVal) (raw : Except Unit String)
    (items : List (String × Nat)) (st : List Doc × List (Nat × PFloat)) :
    Except Unit (List Doc × List (Nat × PFloat)) :=
  match raw with
  | .error _ => .error ()
  | .ok raws =>
    match parseLLMJson decode raws with
    | .error _ => .error ()
    | .ok results =>
      applyMissing items (results.map (fun r => r.1)) (applyResults items results st)

/-- The batch loop over candidate index chunks; ids are prepared from
the current doc state of each chunk. -/
def rerankLoop (decode : String → Option JVal) (respond : Nat → Except Unit String) :
    List (List Nat) → Nat → List Doc × List (Nat × PFloat) →
    Except Unit (List Doc × List (Nat × PFloat))
  | [], _, st => .ok st
  | idxs :: more, bno, st =>
    match processBatch decode (respond bno)
        ((prepareIds (idxs.map fun i => st.1.getD i default)).zip idxs) st with
    | .error e => .error e
    | .ok st2 => rerankLoop decode respond more (bno + 1) st2

/-- Descending stable order on scored entries (ties and nan order per
pfLe; Python sort on nan keys is unspecified). -/
def rrDescLe (a b : Nat × PFloat) : Bool := pfLe b.2 a.2

/-- Object-identity dedup preserving first occurrences. -/
def dedupIdx : List Nat → List Nat → List Nat
  | [], _ => []
  | i :: rest, seen =>
    if i ∈ seen then dedupIdx rest seen else i :: dedupIdx rest (i :: seen)

/-- Global sort desc, identity dedup, and the top_n cut (only a
positive top_n cuts). -/
def rerankOrder (topN : Int) (scored : List (Nat × PFloat)) : List Nat :=
  if 0 < topN then
    (dedupIdx ((scored.mergeSort rrDescLe).map (fun x => x.1)) []).take topN.toNat
  else dedupIdx ((scored.mergeSort rrDescLe).map (fun x => x.1)) []

/-- LLMReranker.rerank: empty query or docs pass through; batches are
scored; on a raised error fail_open returns the input order sliced by
top_n when top_n is nonzero, and fail_closed re-raises; otherwise the
scored entries are sorted, deduped, cut and mapped back to (mutated)
docs. -/
def rerank (decode : String → Option JVal) (respond : Nat → Except Unit String)
    (cfg : RerankCfg) (query : String) (docs : List Doc) :
    Except Unit (List Doc) :=
  if query = "" ∨ docs.isEmpty then .ok docs
  else
    match rerankLoop decode respond
        (batched cfg.batch_size (List.range (capCands cfg.max_candidates docs).length))
        0 (capCands cfg.max_candidates docs, []) with
    | .error _ =>
      if cfg.fail_open then
        .ok (if cfg.top_n ≠ 0 then pySliceTo cfg.top_n docs else docs)
      else .error ()
    | .ok st =>
      .ok ((rerankOrder cfg.top_n st.2).map (fun i => st.1.getD i default))

/-- RagPipeline.rerank_docs: no reranker passes the docs through; any
exception from the reranker is caught and the input docs are returned
unchanged. -/
def rerankDocsStage (reranker : Option (String → List Doc → Except Unit (List Doc)))
    (docs : List Doc) (query : String) : List Doc :=
  match reranker with
  | none => docs
  | some f =>
    match f query docs with
    | .ok out => out
    | .error _ => docs

/-- Reranker config with fail_open disabled. -/
def c2cfg : RerankCfg := { fail_open := false }

/-- A one-doc input for the fail-policy counterexample. -/
def c2doc : Doc := { page_content := "x" }

/-- A decode that always fails (models undecodable LLM output). -/
def c2decode : String → Option JVal := fun _ => none

/-- An LLM call that always raises. -/
def c2respond : Nat → Except Unit String := fun _ => .error ()

/-- C2 counterexample: with fail_open = false the reranker itself
raises, but RagPipeline.rerank_docs catches the exception and returns
the input docs, so the error never propagates out of the rerank stage
to its caller. -/
theorem rerank_fail_policy_cex :
    rerank c2decode c2respond c2cfg "q" [c2doc] = .error () ∧
    rerankDocsStage (some (rerank c2decode c2respond c2cfg)) [c2doc] "q" = [c2doc] :=
  ⟨rfl, rfl⟩

/-- C2 (amended): when the batch phase raises, fail_open = true returns
the input order sliced to top_n when top_n is nonzero (the whole input
when top_n is 0) and fail_open = false propagates the error out of
LLMReranker.rerank; the stage rerank_docs, however, catches every
reranker exception and returns the input docs unchanged, while passing
a successful rerank through. -/
theorem rerank_fail_policy (decode : String → Option JVal)
    (respond : Nat → Except Unit String) (cfg : RerankCfg) (query : String)
    (docs : List Doc) (hq : query ≠ "") (hd : docs ≠ []) :
    (∀ e, rerankLoop decode respond
        (batched cfg.batch_size (List.range (capCands cfg.max_candidates docs).length))
        0 (capCands cfg.max_candidates docs, []) = .error e →
      (cfg.fail_open = true →
        rerank decode respond cfg query docs =
          .ok (if cfg.top_n ≠ 0 then pySliceTo cfg.top_n docs else docs)) ∧
      (cfg.fail_open = false → rerank decode respond cfg query docs = .error ())) ∧
    (∀ f out, f query docs = .ok out → rerankDocsStage (some f) docs query = out) ∧
    (∀ f e, f query docs = .error e → rerankDocsStage (some f) docs query = docs) := by
  have hcond : ¬(query = "" ∨ docs.isEmpty = true) := by
    rintro (h | h)
    · exact hq h
    · exact hd (List.isEmpty_iff.mp h)
  refine ⟨?_, ?_, ?_⟩
  · intro e hloop
    constructor
    · intro hfo
      unfold rerank
      rw [if_neg hcond, hloop]
      show (if cfg.fail_open = true then
          Except.ok (if cfg.top_n ≠ 0 then pySliceTo cfg.top_n docs else docs)
        else .error ()) = _
      rw [if_pos hfo]
    · intro hfo
      unfold rerank
      rw [if_neg hcond, hloop]
      show (if cfg.fail_open = true then
          Except.ok (if cfg.top_n ≠ 0 then pySliceTo cfg.top_n docs else docs)
        else .error ()) = _
      rw [if_neg (by rw [hfo]; exact Bool.false_ne_true)]
  · intro f out h
    show (match f query docs with
      | Except.ok out => out
      | Except.error _ => docs) = out
    rw [h]
  · intro f e h
    show (match f query docs with
      | Except.ok out => out
      | Except.error _ => docs) = docs
    rw [h]

/-- C2 witness: with the default config (fail_open, top_n 8) a raising
LLM call yields the input sliced to top_n. -/
theorem rerank_fail_policy_witness :
    rerank c2decode c2respond {} "q" [c2doc] =
      .ok (if ({} : RerankCfg).top_n ≠ 0 then pySliceTo ({} : RerankCfg).top_n [c2doc]
        else [c2doc]) :=
  ((rerank_fail_policy c2decode c2respond {} "q" [c2doc] (by decide)
      (by decide)).1 () rfl).1 rfl

/-- The clamp always lands in [0, 1] (nan clamps to 1 because Python
min/max return the first argument on failed comparisons). -/
theorem pfClamp01_range (p : PFloat) : ∃ q : ℚ, pfClamp01 p = .fin q ∧ 0 ≤ q ∧ q ≤ 1 := by
  cases p with
  | fin q =>
    by_cases h1 : q < 1
    · by_cases h0 : 0 < q
      · exact ⟨q, by simp [pfClamp01, pyMinF, pyMaxF, pfLt, h1, h0], le_of_lt h0, le_of_lt h1⟩
      · exact ⟨0, by simp [pfClamp01, pyMinF, pyMaxF, pfLt, h1, h0], le_refl 0, by norm_num⟩
    · exact ⟨1, by simp [pfClamp01, pyMinF, pyMaxF, pfLt, h1], by norm_num, le_refl 1⟩
  | nan => exact ⟨1, by simp [pfClamp01, pyMinF, pyMaxF, pfLt], by norm_num, le_refl 1⟩
  | inf => exact ⟨1, by simp [pfClamp01, pyMinF, pyMaxF, pfLt], by norm_num, le_refl 1⟩
  | ninf => exact ⟨0, by simp [pfClamp01, pyMinF, pyMaxF, pfLt], le_refl 0, by norm_num⟩

/-- Lookup in an assoc list with nodup keys finds a listed pair. -/
theorem lookup_nodup_eq (items : List (String × Nat)) (a : String) (b : Nat)
    (hn : (items.map Prod.fst).Nodup) (hm : (a, b) ∈ items) :
    items.lookup a = some b := by
  induction items with
  | nil => cases hm
  | cons hd t ih =>
    rcases List.mem_cons.mp hm with h | h
    · subst h
      simp [List.lookup]
    · have hne : hd.1 ≠ a := by
        intro he
        have : a ∈ t.map Prod.fst := List.mem_map_of_mem Prod.fst h
        rw [List.map_cons, List.nodup_cons, he] at hn
        exact hn.1 this
      have ht : (t.map Prod.fst).Nodup := by
        rw [List.map_cons, List.nodup_cons] at hn
        exact hn.2
      have hbeq : (a == hd.1) = false := by
        simp only [beq_eq_false_iff_ne, ne_eq]
        exact fun he => hne he.symm
      simp only [List.lookup, hbeq]
      exact ih ht h

/-- dedupIdx membership: listed and not already seen. -/
theorem dedupIdx_mem_iff (l : List Nat) :
    ∀ seen i, i ∈ dedupIdx l seen ↔ (i ∈ l ∧ i ∉ seen) := by
  induction l with
  | nil => intro seen i; simp [dedupIdx]
  | cons j rest ih =>
    intro seen i
    show i ∈ (if j ∈ seen then dedupIdx rest seen else j :: dedupIdx rest (j :: seen)) ↔ _
    by_cases hj : j ∈ seen
    · rw [if_pos hj, ih]
      constructor
      · rintro ⟨h1, h2⟩
        exact ⟨List.mem_cons_of_mem j h1, h2⟩
      · rintro ⟨h1, h2⟩
        rcases List.mem_cons.mp h1 with h | h
        · exact absurd hj (by rw [← h] at hj ⊢; exact fun hc => h2 (h ▸ hj))
        · exact ⟨h, h2⟩
    · rw [if_neg hj]
      constructor
      · intro h
        rcases List.mem_cons.mp h with h | h
        · subst h
          exact ⟨List.mem_cons_self i rest, hj⟩
        · rcases (ih (j :: seen) i).mp h with ⟨h1, h2⟩
          exact ⟨List.mem_cons_of_mem j h1,
            fun hc => h2 (List.mem_cons_of_mem j hc)⟩
      · rintro ⟨h1, h2⟩
        rcases List.mem_cons.mp h1 with h | h
        · subst h
          exact List.mem_cons_self i _
        · by_cases hij : i = j
          · subst hij
            exact List.mem_cons_self i _
          · exact List.mem_cons_of_mem j ((ih (j :: seen) i).mpr
              ⟨h, fun hc => (List.mem_cons.mp hc).elim (fun he => hij he) h2⟩)

/-- Descending score order is transitive. -/
theorem rrDescLe_trans (a b c : Nat × PFloat) (h1 : rrDescLe a b = true)
    (h2 : rrDescLe b c = true) : rrDescLe a c = true :=
  pfLe_trans c.2 b.2 a.2 h2 h1

/-- Descending score order is total. -/
theorem rrDescLe_total (a b : Nat × PFloat) : (rrDescLe a b || rrDescLe b a) = true := by
  have := pfLe_total b.2 a.2
  simpa [rrDescLe, Bool.or_comm] using this

/-- modifyAt with a function that fixes the target element is the
identity. -/
theorem modifyAt_fix (l : List Doc) (i : Nat) (f : Doc → Doc) (hi : i < l.length)
    (hf : f l[i] = l[i]) : modifyAt l i f = l := by
  unfold modifyAt
  rw [List.drop_eq_getElem_cons hi]
  show l.take i ++ f l[i] :: l.drop (i + 1) = l
  rw [hf, ← List.drop_eq_getElem_cons hi, List.take_append_drop]

/-- Scored entries survive the response pass. -/
theorem applyRes_mem_mono (items : List (String × Nat))
    (results : List (String × PFloat × Option String)) :
    ∀ st x, x ∈ st.2 → x ∈ (applyResults items results st).2 := by
  induction results with
  | nil => intro st x hx; exact hx
  | cons r rest ih =>
    intro st x hx
    show x ∈ (List.foldl (applyResStep items) (applyResStep items st r) rest).2
    refine ih (applyResStep items st r) x ?_
    unfold applyResStep
    match items.lookup r.1 with
    | none => exact hx
    | some idx => exact List.mem_append_left _ hx

/-- A response entry whose id is a batch item lands in scored. -/
theorem applyRes_hit (items : List (String × Nat))
    (results : List (String × PFloat × Option String)) :
    ∀ st r idx, r ∈ results → items.lookup r.1 = some idx →
      ∃ p, (idx, p) ∈ (applyResults items results st).2 := by
  induction results with
  | nil => intro st r idx hr; cases hr
  | cons r0 rest ih =>
    intro st r idx hr hl
    rcases List.mem_cons.mp hr with h | h
    · subst h
      refine ⟨r.2.1, applyRes_mem_mono items rest (applyResStep items st r) _ ?_⟩
      unfold applyResStep
      rw [hl]
      exact List.mem_append_right _ (List.mem_singleton.mpr rfl)
    · exact ih (applyResStep items st r0) r idx h hl

/-- Unfolding of one missing-pass step on a live state. -/
theorem applyMissingStep_ok (rids : List String) (cands : List Doc)
    (scored : List (Nat × PFloat)) (it : String × Nat) :
    applyMissingStep rids (.ok (cands, scored)) it =
      if it.1 ∈ rids then .ok (cands, scored)
      else
        match (((modifyAt cands it.2 (fun d =>
            { d with metadata := d.metadata.setdefault "rerank_score" (.f .ninf) })).getD
              it.2 default).md "rerank_score").bind MVal.toFloat with
        | none => .error ()
        | some v =>
          .ok (modifyAt cands it.2 (fun d =>
            { d with metadata := d.metadata.setdefault "rerank_score" (.f .ninf) }),
           scored ++ [(it.2, v)]) := rfl

/-- A missing-pass fold started in the error state stays there. -/
theorem applyMissing_error (rids : List String) (items : List (String × Nat)) (e : Unit) :
    items.foldl (applyMissingStep rids) (.error e) = .error e := by
  induction items with
  | nil => rfl
  | cons it rest ih => exact ih

/-- Scored entries survive a successful missing pass. -/
theorem applyMissing_mem_mono (rids : List String) (items : List (String × Nat)) :
    ∀ st stF, applyMissing items rids st = .ok stF → ∀ x ∈ st.2, x ∈ stF.2 := by
  induction items with
  | nil =>
    intro st stF h x hx
    cases h
    exact hx
  | cons it rest ih =>
    rintro ⟨cands, scored⟩ stF h x hx
    have hstep : applyMissing (it :: rest) rids (cands, scored) =
        rest.foldl (applyMissingStep rids)
          (applyMissingStep rids (.ok (cands, scored)) it) := rfl
    rw [hstep] at h
    match hs : applyMissingStep rids (.ok (cands, scored)) it with
    | .error e =>
      rw [hs, applyMissing_error] at h
      cases h
    | .ok st1 =>
      rw [hs] at h
      refine ih st1 stF h x ?_
      rw [applyMissingStep_ok] at hs
      by_cases hin : it.1 ∈ rids
      · rw [if_pos hin] at hs
        cases hs
        exact hx
      · rw [if_neg hin] at hs
        match hv : (((modifyAt cands it.2 (fun d =>
            { d with metadata := d.metadata.setdefault "rerank_score" (.f .ninf) })).getD
              it.2 default).md "rerank_score").bind MVal.toFloat with
        | none => rw [hv] at hs; cases hs
        | some v =>
          rw [hv] at hs
          cases hs
          exact List.mem_append_left _ hx

/-- A batch item missing from the response lands in scored on a
successful missing pass. -/
theorem applyMissing_hit (rids : List String) (items : List (String × Nat)) :
    ∀ st stF it, applyMissing items rids st = .ok stF → it ∈ items →
      it.1 ∉ rids → ∃ p, (it.2, p) ∈ stF.2 := by
  induction items with
  | nil => intro st stF it h hit; cases hit
  | cons it0 rest ih =>
    rintro ⟨cands, scored⟩ stF it h hit hnin
    have hstep : applyMissing (it0 :: rest) rids (cands, scored) =
        rest.foldl (applyMissingStep rids)
          (applyMissingStep rids (.ok (cands, scored)) it0) := rfl
    rw [hstep] at h
    match hs : applyMissingStep rids (.ok (cands, scored)) it0 with
    | .error e =>
      rw [hs, applyMissing_error] at h
      cases h
    | .ok st1 =>
      rw [hs] at h
      rcases List.mem_cons.mp hit with he | he
      · subst he
        rw [applyMissingStep_ok] at hs
        rw [if_neg hnin] at hs
        match hv : (((modifyAt cands it.2 (fun d =>
            { d with metadata := d.metadata.setdefault "rerank_score" (.f .ninf) })).getD
              it.2 default).md "rerank_score").bind MVal.toFloat with
        | none => rw [hv] at hs; cases hs
        | some v =>
          rw [hv] at hs
          cases hs
          exact ⟨v, applyMissing_mem_mono rids rest _ stF h (it.2, v)
            (List.mem_append_right _ (List.mem_singleton.mpr rfl))⟩
      · exact ih st1 stF it h he hnin

/-- Every batch item index appears in scored after a successful batch
(batch ids unique). -/
theorem processBatch_presence (decode : String → Option JVal)
    (rawE : Except Unit String) (items : List (String × Nat))
    (st : List Doc × List (Nat × PFloat)) (st2 : List Doc × List (Nat × PFloat))
    (hn : (items.map Prod.fst).Nodup)
    (h : processBatch decode rawE items st = .ok st2) :
    ∀ it ∈ items, ∃ p, (it.2, p) ∈ st2.2 := by
  intro it hit
  unfold processBatch at h
  match hraw : rawE with
  | .error e =>
    exact Except.noConfusion
      (show (Except.error () : Except Unit (List Doc × List (Nat × PFloat))) =
        .ok st2 from h)
  | .ok raws =>
    replace h : (match parseLLMJson decode raws with
      | Except.error _ => (Except.error () : Except Unit (List Doc × List (Nat × PFloat)))
      | Except.ok results =>
        applyMissing items
          (results.map (fun r : String × PFloat × Option String => r.1))
          (applyResults items results st)) = .ok st2 := h
    match hp : parseLLMJson decode raws with
    | .error e =>
      rw [hp] at h
      exact Except.noConfusion
        (show (Except.error () : Except Unit (List Doc × List (Nat × PFloat))) =
          .ok st2 from h)
    | .ok results =>
      rw [hp] at h
      replace h : applyMissing items (results.map (fun r => r.1))
          (applyResults items results st) = .ok st2 := h
      by_cases hin : it.1 ∈ results.map (fun r => r.1)
      · rcases List.mem_map.mp hin with ⟨r, hr, hre⟩
        have hl : items.lookup r.1 = some it.2 := by
          rw [hre]
          exact lookup_nodup_eq items it.1 it.2 hn (by
            have : it = (it.1, it.2) := rfl
            rw [← this]
            exact hit)
        rcases applyRes_hit items results st r it.2 hr hl with ⟨p, hpmem⟩
        exact ⟨p, applyMissing_mem_mono _ _ _ _ h (it.2, p) hpmem⟩
      · exact applyMissing_hit _ _ _ _ it h hit hin

/-- modifyAt steps through a cons. -/
theorem modifyAt_cons_succ (a : Doc) (l : List Doc) (i : Nat) (f : Doc → Doc) :
    modifyAt (a :: l) (i + 1) f = a :: modifyAt l i f := rfl

/-- The element at the modified index. -/
theorem modifyAt_getD (l : List Doc) (i : Nat) (f : Doc → Doc) (hi : i < l.length) :
    (modifyAt l i f).getD i default = f (l.getD i default) := by
  induction l generalizing i with
  | nil => simp at hi
  | cons a t ih =>
    cases i with
    | zero => rfl
    | succ j =>
      rw [modifyAt_cons_succ]
      show (modifyAt t j f).getD j default = f (t.getD j default)
      exact ih j (Nat.lt_of_succ_lt_succ hi)

/-- Lookup skips a prefix without the key. -/
theorem lookup_append_of_none (m l2 : MMap) (k : String) (h : m.lookup k = none) :
    (m ++ l2).lookup k = l2.lookup k := by
  induction m with
  | nil => rfl
  | cons p t ih =>
    by_cases hk : (k == p.1) = true
    · exfalso
      simp only [List.lookup, hk] at h
      cases h
    · have hk' : (k == p.1) = false := by
        cases hbe : (k == p.1) with
        | true => exact absurd hbe hk
        | false => rfl
      simp only [List.lookup, hk'] at h ⊢
      exact ih h

/-- C8 counterexample doc: a pre-existing metadata rerank_score of 2.0. -/
def c8doc : Doc :=
  { metadata := [("chunk_id", .s "c1"), ("rerank_score", .f (.fin 2))] }

/-- A decode accepting only the literal empty-array text. -/
def c8decode : String → Option JVal := fun s => if s = "[]" then some (.arr []) else none

/-- An LLM that answers every batch with an empty array. -/
def c8respond : Nat → Except Unit String := fun _ => .ok "[]"

/-- C8 counterexample: the candidate id c1 is missing from the batch
response (an empty array), but its pre-existing metadata rerank_score
2.0 is kept by setdefault and is what lands in scored — the doc does
not receive negative infinity. -/
theorem rerank_missing_setdefault_cex :
    rerankLoop c8decode c8respond (batched 12 (List.range 1)) 0 ([c8doc], []) =
      .ok ([c8doc], [(0, .fin 2)]) ∧
    c8doc.md "rerank_score" = some (.f (.fin 2)) ∧
    ((.fin 2 : PFloat) ≠ .ninf) :=
  ⟨rfl, rfl, by decide⟩

/-- C8 (amended): response handling — strict JSON decode of the
stripped text first, else decode of the greedy bracketed extraction
(first open bracket to last close bracket), else the parse raises;
every parsed score is clamped into [0, 1]; a candidate id absent from
its batch response gets rerank_score -inf only when the metadata has no
pre-existing rerank_score (setdefault keeps a pre-existing value, which
is what lands in scored) and stays present in scored either way (batch
ids unique); the scored entries are globally sorted descending and the
deduped output is cut to top_n only when top_n is positive, with
top_n = 0 meaning no cap. -/
theorem rerank_response_handling :
    (∀ decode raw data, decode (pyStrip raw) = some data →
      parseLLMJson decode raw = processData data) ∧
    (∀ decode raw sub, decode (pyStrip raw) = none →
      extractArr (pyStrip raw).toList = some sub →
      parseLLMJson decode raw =
        (match decode (String.mk sub) with
         | some d2 => processData d2
         | none => .error ())) ∧
    (∀ decode raw, decode (pyStrip raw) = none →
      extractArr (pyStrip raw).toList = none →
      parseLLMJson decode raw = .error ()) ∧
    (∀ p, ∃ q : ℚ, pfClamp01 p = .fin q ∧ 0 ≤ q ∧ q ≤ 1) ∧
    (∀ o rid sc rsn, processObj o = some (rid, sc, rsn) → ∃ p, sc = pfClamp01 p) ∧
    (∀ rids cands scored (it : String × Nat), it.1 ∉ rids →
      (cands.getD it.2 default).md "rerank_score" = none → it.2 < cands.length →
      applyMissingStep rids (.ok (cands, scored)) it =
        .ok (modifyAt cands it.2 (fun d =>
          { d with metadata := d.metadata.setdefault "rerank_score" (.f .ninf) }),
         scored ++ [(it.2, .ninf)])) ∧
    (∀ rids cands scored (it : String × Nat) v p, it.1 ∉ rids → it.2 < cands.length →
      (cands.getD it.2 default).md "rerank_score" = some v → MVal.toFloat v = some p →
      applyMissingStep rids (.ok (cands, scored)) it =
        .ok (cands, scored ++ [(it.2, p)])) ∧
    (∀ decode rawE items st st2, (items.map Prod.fst).Nodup →
      processBatch decode rawE items st = .ok st2 →
      ∀ it ∈ items, ∃ p, (it.2, p) ∈ st2.2) ∧
    (∀ scored : List (Nat × PFloat),
      (scored.mergeSort rrDescLe).Pairwise (fun a b => rrDescLe a b = true)) ∧
    (∀ topN scored, 0 < topN → rerankOrder topN scored =
      (dedupIdx ((scored.mergeSort rrDescLe).map (fun x => x.1)) []).take topN.toNat) ∧
    (∀ (scored : List (Nat × PFloat)) i, i ∈ scored.map (fun x => x.1) →
      i ∈ rerankOrder 0 scored) := by
  refine ⟨?_, ?_, ?_, pfClamp01_range, ?_, ?_, ?_, processBatch_presence, ?_, ?_, ?_⟩
  · intro decode raw data h
    unfold parseLLMJson
    rw [h]
  · intro decode raw sub h he
    unfold parseLLMJson
    rw [h, he]
  · intro decode raw h he
    unfold parseLLMJson
    rw [h, he]
  · intro o rid sc rsn h
    match o with
    | .obj kvs =>
      replace h : (match jget kvs "id", jget kvs "score" with
        | some r, some score =>
          match jfloat score with
          | some f => some (jstr r, pfClamp01 f, (jget kvs "reason").map jstr)
          | none => none
        | _, _ => none) = some (rid, sc, rsn) := h
      match h1 : jget kvs "id", h2 : jget kvs "score" with
      | some r, some s =>
        rw [h1, h2] at h
        replace h : (match jfloat s with
          | some f => some (jstr r, pfClamp01 f, (jget kvs "reason").map jstr)
          | none => none) = some (rid, sc, rsn) := h
        match h3 : jfloat s with
        | some f =>
          rw [h3] at h
          replace h : some (jstr r, pfClamp01 f, (jget kvs "reason").map jstr) =
              some (rid, sc, rsn) := h
          exact ⟨f, (congrArg (fun t => t.2.1) (Option.some.inj h)).symm⟩
        | none =>
          rw [h3] at h
          exact Option.noConfusion h
      | some r, none =>
        rw [h1, h2] at h
        exact Option.noConfusion h
      | none, some s =>
        rw [h1, h2] at h
        exact Option.noConfusion h
      | none, none =>
        rw [h1, h2] at h
        exact Option.noConfusion h
    | .s v => exact Option.noConfusion h
    | .num q => exact Option.noConfusion h
    | .b x => exact Option.noConfusion h
    | .null => exact Option.noConfusion h
    | .arr xs => exact Option.noConfusion h
  · intro rids cands scored it hnin habs hlt
    rw [applyMissingStep_ok, if_neg hnin]
    have hmd : ((modifyAt cands it.2 (fun d =>
        { d with metadata := d.metadata.setdefault "rerank_score" (.f .ninf) })).getD
          it.2 default).md "rerank_score" = some (.f .ninf) := by
      rw [modifyAt_getD _ _ _ hlt]
      show ((cands.getD it.2 default).metadata.setdefault "rerank_score"
        (.f .ninf)).lookup "rerank_score" = some (.f .ninf)
      unfold MMap.setdefault
      rw [if_neg (by
        have : (cands.getD it.2 default).metadata.lookup "rerank_score" = none := habs
        rw [this]
        simp)]
      rw [lookup_append_of_none _ _ _ habs]
      rfl
    rw [hmd]
    rfl
  · intro rids cands scored it v p hnin hlt hmd htf
    rw [applyMissingStep_ok, if_neg hnin]
    have hval : ((cands.getD it.2 default).metadata.lookup "rerank_score").isSome = true := by
      have : (cands.getD it.2 default).metadata.lookup "rerank_score" = some v := hmd
      rw [this]
      rfl
    have hfix : modifyAt cands it.2 (fun d =>
        { d with metadata := d.metadata.setdefault "rerank_score" (.f .ninf) }) = cands := by
      apply modifyAt_fix _ _ _ hlt
      have hg : cands.getD it.2 default = cands[it.2] := List.getD_eq_getElem cands default hlt
      rw [← hg]
      show { cands.getD it.2 default with metadata :=
        ((cands.getD it.2 default).metadata.setdefault "rerank_score" (.f .ninf)) } =
        cands.getD it.2 default
      unfold MMap.setdefault
      rw [if_pos hval]
    rw [hfix, hmd]
    show (match MVal.toFloat v with
      | none => (Except.error () : Except Unit (List Doc × List (Nat × PFloat)))
      | some w => .ok (cands, scored ++ [(it.2, w)])) = .ok (cands, scored ++ [(it.2, p)])
    rw [htf]
  · intro scored
    exact List.sorted_mergeSort rrDescLe_trans rrDescLe_total scored
  · intro topN scored h
    unfold rerankOrder
    rw [if_pos h]
  · intro scored i hi
    unfold rerankOrder
    rw [if_neg (lt_irrefl 0)]
    rcases List.mem_map.mp hi with ⟨x, hx, hxe⟩
    refine (dedupIdx_mem_iff _ [] i).mpr ⟨?_, List.not_mem_nil i⟩
    refine List.mem_map.mpr ⟨x, ?_, hxe⟩
    exact (List.Perm.mem_iff (List.mergeSort_perm scored rrDescLe)).mpr hx

/-- C8 witness: a strict decode of the literal empty array parses
through processData. -/
theorem rerank_response_handling_witness :
    c8decode (pyStrip "[]") = some (.arr []) ∧
    parseLLMJson c8decode "[]" = processData (.arr []) :=
  ⟨rfl, rerank_response_handling.1 c8decode "[]" (.arr []) rfl⟩

/-- C1: the LLM compressor runs only when use_llm holds and an adapter
is provided, the heuristic output has at least 2 documents and
max_context is positive, some heuristic document carries a rerank_score,
and the heuristic text mass is at least 0.7 times max_context; in every
other case the compress stage returns the heuristic output unchanged
with llm_applied = false and heuristic_hits the heuristic count. -/
theorem compress_llm_trigger (useLlm : Bool) (adapter : Option (List Doc → List Doc))
    (maxContext : Option Int) (heur : List Doc) :
    (¬ (useLlm = true ∧ adapter.isSome = true ∧ 2 ≤ heur.length ∧
        (∃ d ∈ heur, (d.md "rerank_score").isSome = true) ∧
        (∃ mc, maxContext = some mc ∧ 0 < mc ∧
          7 * mc ≤ 10 * (sumLenDocs heur : Int))) →
      compressTwoTier useLlm adapter maxContext heur = (heur, heur.length, false)) ∧
    (∀ f, adapter = some f → useLlm = true → 2 ≤ heur.length →
      (∃ d ∈ heur, (d.md "rerank_score").isSome = true) →
      (∃ mc, maxContext = some mc ∧ 0 < mc ∧
        7 * mc ≤ 10 * (sumLenDocs heur : Int)) →
      (compressTwoTier useLlm adapter maxContext heur).1 = f heur ∧
      (compressTwoTier useLlm adapter maxContext heur).2.1 = heur.length) := by
  have htrig : (useLlm && (heur.any fun d => (d.md "rerank_score").isSome) &&
      decide (2 ≤ heur.length) &&
      (match maxContext with
       | some mc => decide (0 < mc) && decide (7 * mc ≤ 10 * (sumLenDocs heur : Int))
       | none => false)) = true ↔
      (useLlm = true ∧ 2 ≤ heur.length ∧
        (∃ d ∈ heur, (d.md "rerank_score").isSome = true) ∧
        (∃ mc, maxContext = some mc ∧ 0 < mc ∧
          7 * mc ≤ 10 * (sumLenDocs heur : Int))) := by
    constructor
    · intro h
      have h1 := (Bool.and_eq_true_iff.mp h).1
      have hmc := (Bool.and_eq_true_iff.mp h).2
      have h2 := (Bool.and_eq_true_iff.mp h1).1
      have hlen := (Bool.and_eq_true_iff.mp h1).2
      have hu := (Bool.and_eq_true_iff.mp h2).1
      have hrr := (Bool.and_eq_true_iff.mp h2).2
      refine ⟨hu, by simpa using hlen, by simpa using List.any_eq_true.mp hrr, ?_⟩
      match hm : maxContext with
      | some mc =>
        simp only [Bool.and_eq_true, decide_eq_true_eq] at hmc
        exact ⟨mc, rfl, hmc.1, hmc.2⟩
      | none => simp at hmc
    · rintro ⟨hu, hlen, ⟨d, hd, hdr⟩, ⟨mc, hm, hpos, hsum⟩⟩
      subst hm
      simp only [Bool.and_eq_true, decide_eq_true_eq]
      exact ⟨⟨⟨hu, List.any_eq_true.mpr ⟨d, hd, hdr⟩⟩, hlen⟩, hpos, hsum⟩
  constructor
  · intro hneg
    match ha : adapter with
    | none => exact compressTwoTier_none useLlm maxContext heur
    | some f =>
      rw [compressTwoTier_some, if_neg ?_]
      intro htr
      rcases htrig.mp htr with ⟨hu, hlen, hrr, hmc⟩
      exact hneg ⟨hu, rfl, hlen, hrr, hmc⟩
  · intro f ha hu hlen hrr hmc
    subst ha
    rw [compressTwoTier_some, if_pos (htrig.mpr ⟨hu, hlen, hrr, hmc⟩)]
    exact ⟨rfl, rfl⟩

/-- C1 witness: the trigger theorem applied at a concrete instance where
the conditions fail (no rerank score), so the stage returns the
heuristic output with llm_applied false. -/
theorem compress_llm_trigger_witness :
    compressTwoTier true (some (fun _ => [])) (some 10) [mdocA, mdocB]
      = ([mdocA, mdocB], 2, false) :=
  (compress_llm_trigger true (some (fun _ => [])) (some 10) [mdocA, mdocB]).1
    (by
      rintro ⟨-, -, -, ⟨d, hd, hdr⟩, -⟩
      rcases List.mem_cons.mp hd with h | h
      · subst h; cases hdr
      · rcases List.mem_cons.mp h with h | h
        · subst h; cases hdr
        · cases h)

end Talkie
